import Mathlib

/-!
Verification of the row-to-struct mapping engine of the `reflectp` package
(struct reflection, column-path resolution, scan-plan compilation, and the
post-scan zero-value collapse pass), shallowly embedded in Lean.

Modelling conventions:
* Go `reflect.Value` trees are modelled by the inductive `V`: scalar leaves
  (all scalar kinds are collapsed to `Int`, whose zero value is `0`), single
  pointers (`Option`), and structs (field list).  Custom `IsZero() bool`
  implementations of leaf types are not modelled; `isZeroV` is Go's
  structural `reflect.Value.IsZero`.
* Go types are modelled by `GoType` over a type environment (a list of struct
  declarations) so that self-referential struct types can be expressed; the
  descriptor builder `newFields` is written with explicit fuel, mirroring the
  source's visited-set recursion.
* Machine integer overflow plays no role in the modelled code paths.
-/

namespace Reflectp

/-- Runtime values: scalars, single-level pointers, structs (field list). -/
inductive V where
  | int (n : Int)
  | ptr (v : Option V)
  | strukt (fs : List V)

mutual

/-- Navigate a field-index path the way the source walks values:
`v = reflect.Indirect(v).Field(i)` at every step (dereference exactly once,
then select the field of the resulting struct); the final field value is
returned without a trailing dereference.  `none` models a panic or an
invalid value encountered along the way. -/
def readPath : V → List Nat → Option V
  | v, [] => some v
  | .ptr (some u), i :: p =>
    match u with
    | .strukt fs => readFieldL fs i p
    | _ => none
  | .strukt fs, i :: p => readFieldL fs i p
  | _, _ :: _ => none

/-- Field selection helper for `readPath`. -/
def readFieldL : List V → Nat → List Nat → Option V
  | [], _, _ => none
  | f :: _, 0, p => readPath f p
  | _ :: fs, i + 1, p => readFieldL fs i p

end

mutual

/-- Functionally update the value at a field-index path (pointers are
traversed transparently, as `reflect.Indirect` does).  Out-of-range or
ill-shaped paths leave the value unchanged (the source would panic there;
no modelled code path reaches that case). -/
def updatePath : V → List Nat → (V → V) → V
  | v, [], g => g v
  | .ptr (some u), i :: p, g =>
    match u with
    | .strukt fs => .ptr (some (.strukt (updateFieldL fs i p g)))
    | _ => .ptr (some u)
  | .strukt fs, i :: p, g => .strukt (updateFieldL fs i p g)
  | v, _ :: _, _ => v

/-- Field update helper for `updatePath`. -/
def updateFieldL : List V → Nat → List Nat → (V → V) → List V
  | [], _, _, _ => []
  | f :: fs, 0, p, g => updatePath f p g :: fs
  | f :: fs, i + 1, p, g => f :: updateFieldL fs i p g

end

mutual

/-- Go `reflect.Value.IsZero`, structurally: zero scalar, nil pointer, or a
struct all of whose fields are zero. -/
def isZeroV : V → Bool
  | .int n => n == 0
  | .ptr none => true
  | .ptr (some _) => false
  | .strukt fs => isZeroL fs

/-- All of the values in the list are zero. -/
def isZeroL : List V → Bool
  | [] => true
  | f :: fs => isZeroV f && isZeroL fs

end

mutual

/-- All scalar data in the value is zero, looking through non-nil pointers.
(The specification's notion "every reachable leaf equals its default".) -/
def deepZero : V → Bool
  | .int n => n == 0
  | .ptr none => true
  | .ptr (some u) => deepZero u
  | .strukt fs => deepZeroL fs

/-- All scalar data in all values in the list is zero. -/
def deepZeroL : List V → Bool
  | [] => true
  | f :: fs => deepZero f && deepZeroL fs

end

mutual

/-- Collapse only pointer positions whose field-index path length is at least
`n` (pointer indirections do not add to path length): nil out such a pointer
whenever its (recursively collapsed) pointee is zero.  `collapseGE 0`
collapses every pointer position; it is the idealised bottom-up collapse the
sequential deepest-first pass of `FieldsRows.Scan` is proved to realise. -/
def collapseGE : Nat → V → V
  | _, .int n => .int n
  | _, .ptr none => .ptr none
  | n, .ptr (some u) =>
    if n = 0 then
      let u' := collapseGE 0 u
      if isZeroV u' then .ptr none else .ptr (some u')
    else .ptr (some (collapseGE n u))
  | n, .strukt fs => .strukt (collapseGEL (n - 1) fs)

/-- `collapseGE` mapped over struct fields. -/
def collapseGEL : Nat → List V → List V
  | _, [] => []
  | n, f :: fs => collapseGE n f :: collapseGEL n fs

end

/-- The idealised full bottom-up collapse. -/
def collapseAll (v : V) : V := collapseGE 0 v

mutual

/-- Paths (in the navigation semantics of `readPath`) of all pointer
positions, nil or not. -/
def ptrPaths : V → List (List Nat)
  | .int _ => []
  | .ptr none => [[]]
  | .ptr (some u) =>
    [] :: (match u with
           | .strukt fs => ptrPathsL 0 fs
           | _ => [])
  | .strukt fs => ptrPathsL 0 fs

/-- Pointer positions of the fields of a struct, starting at field index `i`. -/
def ptrPathsL : Nat → List V → List (List Nat)
  | _, [] => []
  | i, f :: fs => (ptrPaths f).map (fun p => i :: p) ++ ptrPathsL (i + 1) fs

end

mutual

/-- Paths of all non-nil pointer positions. -/
def ptrSomePaths : V → List (List Nat)
  | .int _ => []
  | .ptr none => []
  | .ptr (some u) =>
    [] :: (match u with
           | .strukt fs => ptrSomePathsL 0 fs
           | _ => [])
  | .strukt fs => ptrSomePathsL 0 fs

/-- Non-nil pointer positions of the fields of a struct, from index `i`. -/
def ptrSomePathsL : Nat → List V → List (List Nat)
  | _, [] => []
  | i, f :: fs => (ptrSomePaths f).map (fun p => i :: p) ++ ptrSomePathsL (i + 1) fs

end

mutual

/-- Paths of all scalar positions holding a non-zero scalar. -/
def nonzeroIntPaths : V → List (List Nat)
  | .int n => if n = 0 then [] else [[]]
  | .ptr none => []
  | .ptr (some u) =>
    match u with
    | .strukt fs => nonzeroIntPathsL 0 fs
    | _ => []
  | .strukt fs => nonzeroIntPathsL 0 fs

/-- Non-zero scalar positions of the fields of a struct, from index `i`. -/
def nonzeroIntPathsL : Nat → List V → List (List Nat)
  | _, [] => []
  | i, f :: fs => (nonzeroIntPaths f).map (fun p => i :: p) ++ nonzeroIntPathsL (i + 1) fs

end

mutual

/-- Every pointee of a non-nil pointer in the value is a struct (the shape
of every value built from scanned rows of the modelled engine). -/
def structPointees : V → Bool
  | .int _ => true
  | .ptr none => true
  | .ptr (some u) =>
    match u with
    | .strukt fs => structPointeesL fs
    | _ => false
  | .strukt fs => structPointeesL fs

/-- `structPointees` over all values in the list. -/
def structPointeesL : List V → Bool
  | [] => true
  | f :: fs => structPointees f && structPointeesL fs

end

/-- Whether the value holds a present (non-nil) pointer at path `p`. -/
def presentAt (v : V) (p : List Nat) : Bool :=
  match readPath v p with
  | some (.ptr (some _)) => true
  | _ => false

/-! ## Go types, struct tags, and the descriptor builder (`newFields`) -/

/-- Go types as used by the engine: scalar kinds (collapsed to one), single
pointers, and named struct types referenced through a type environment (so
that self-referential types are expressible). -/
inductive GoType where
  | scalarT
  | ptrT (t : GoType)
  | structT (id : Nat)
deriving DecidableEq

/-- One declared struct field: name, anonymity (Go embedding), exportedness,
the raw `sqlp` struct tag (`""` when absent), and the declared type. -/
structure GoField where
  name : String
  anonymous : Bool
  exported : Bool
  tag : String
  typ : GoType
deriving DecidableEq

/-- A struct type declaration. -/
structure GoStructT where
  fields : List GoField
deriving DecidableEq

/-- The process-wide set of struct types, by identity. -/
abbrev TypeEnv := List GoStructT

def GoType.isPtr : GoType → Bool
  | .ptrT _ => true
  | _ => false

def GoType.isStruct : GoType → Bool
  | .structT _ => true
  | _ => false

/-- One level of pointer dereference on a type (`deref` in the source). -/
def derefT : GoType → GoType
  | .ptrT t => t
  | t => t

def structId? : GoType → Option Nat
  | .structT id => some id
  | _ => none

/-- Go `strings.Cut` with a one-character separator, on character lists:
split at the first occurrence, reporting whether it was found. -/
def cutChars (sep : Char) : List Char → List Char × List Char × Bool
  | [] => ([], [], false)
  | c :: cs =>
    if c = sep then ([], cs, true)
    else
      let r := cutChars sep cs
      (c :: r.1, r.2.1, r.2.2)

/-- Go `strings.Cut(s, sep)` for a one-character separator. -/
def cutS (s : String) (sep : Char) : String × String × Bool :=
  let r := cutChars sep s.data
  (⟨r.1⟩, ⟨r.2.1⟩, r.2.2)

/-- Go `parseTag`: split the tag at its first comma into name and options. -/
def parseTag (tag : String) : String × String :=
  let r := cutS tag ','
  (r.1, r.2.1)

/-- Go `tagOptions.Contains`: scan the comma-separated option list for an
exact option name.  The first argument is structural fuel (the wrapper
supplies one unit per character plus one, which the cut-loop never
exhausts). -/
def tagOptionsContainsF : Nat → List Char → String → Bool
  | 0, _, _ => false
  | _ + 1, [], _ => false
  | fuel + 1, c :: cs, optionName =>
    let r := cutChars ',' (c :: cs)
    if (⟨r.1⟩ : String) = optionName then true
    else tagOptionsContainsF fuel r.2.1 optionName

/-- `opts.Contains(name)` on the option part of a tag. -/
def optsContains (opts : String) (optionName : String) : Bool :=
  tagOptionsContainsF (opts.data.length + 1) opts.data optionName

/-- Go `isValidTag`: non-empty, and every character is a letter, a digit, or
one of the allowed punctuation characters.  (The source uses full Unicode
letter/digit classes; the model restricts to ASCII, which covers every tag in
the repository.) -/
def isValidTag (s : String) : Bool :=
  decide (s ≠ "") && s.data.all (fun c =>
    "!#$%&()*+-./:;<=>?@[]^_{|}~ ".data.contains c || (c.isAlpha || c.isDigit))

/-- Zero `reflect.Value`s of a list of Go types, with structural fuel for
struct nesting (struct value recursion is impossible in Go, so adequate fuel
always exists; `none` marks exhausted fuel or a dangling type reference,
neither of which a Go program can produce). -/
def zeroValTs (env : TypeEnv) : Nat → List GoType → Option (List V)
  | 0, _ => none
  | _ + 1, [] => some []
  | fuel + 1, t :: ts =>
    let hd : Option V :=
      match t with
      | .scalarT => some (.int 0)
      | .ptrT _ => some (.ptr none)
      | .structT id =>
        match env.get? id with
        | none => none
        | some st =>
          match zeroValTs env fuel (st.fields.map GoField.typ) with
          | none => none
          | some vs => some (.strukt vs)
    match hd, zeroValTs env fuel ts with
    | some v, some vs => some (v :: vs)
    | _, _ => none

/-- The zero `reflect.Value` of one Go type (`reflect.New(t).Elem()`). -/
def zeroVal (env : TypeEnv) (fuel : Nat) (t : GoType) : Option V :=
  match zeroValTs env fuel [t] with
  | some (v :: _) => some v
  | _ => none

/-- `Field` of the source: one column's mapping metadata. -/
structure FieldD where
  column : String
  tagged : Bool
  index : List Nat
  directType : GoType
  declType : GoType
deriving DecidableEq

/-- `Fields` of the source: the descriptor of one struct type.  The Go map
`ByColumnName` is modelled as an association list in insertion order (one
deterministic linearisation of the unordered Go map). -/
structure FieldsD where
  byColumnName : List (String × FieldD)
  tid : Nat
deriving DecidableEq

/-- Build-time errors of `newFields`, carrying what the source's error
messages name.  `outOfFuel` is the model's marker for non-termination of the
fuelled recursion; it never occurs at adequate fuel. -/
inductive BuildErr where
  | duplicate (column : String)
  | duplicateEmbedded (column : String) (fieldName : String)
  | subErr (fieldName : String) (e : BuildErr)
  | outOfFuel
deriving DecidableEq

/-- The `add` closure of `newFields`: insert a column if absent, reporting a
duplicate otherwise. -/
def addCol (m : List (String × FieldD)) (col : String) (f : FieldD) :
    Option (List (String × FieldD)) :=
  if (m.lookup col).isSome then none else some (m ++ [(col, f)])

/-- The promotion merge loop of `newFields`: merge an embedded descriptor's
columns into the parent map, prepending the field's declaration index and
prefixing `column ++ "_"` exactly when the field carries an explicit valid
tag name; a collision is reported with the *unprefixed* embedded column name
and the embedding field's name, as in the source. -/
def promoteMerge (tagged : Bool) (column : String) (i : Nat) (sfName : String) :
    List (String × FieldD) → List (String × FieldD) →
    Except BuildErr (List (String × FieldD))
  | m, [] => .ok m
  | m, (k, f) :: rest =>
    let f' := { f with index := i :: f.index }
    let col := if tagged then column ++ "_" ++ k else k
    match addCol m col f' with
    | none => .error (.duplicateEmbedded k sfName)
    | some m' => promoteMerge tagged column i sfName m' rest

/-- The two mutually recursive phases of the descriptor builder, merged into
one structural-fuel recursion: reflect a whole struct type (`typ`), or
continue the field loop of one over the remaining `(declaration index,
field)` pairs with the column map and visited set built so far (`loop`). -/
inductive BuildCall where
  | typ (tid : Nat) (vis : List Nat)
  | loop (rest : List (Nat × GoField)) (m : List (String × FieldD)) (vis : List Nat)

/-- The tag-derived column-name override of a field: the tag's name part if
syntactically valid, else empty. -/
def fieldColumn1 (sf : GoField) : String :=
  if isValidTag (parseTag sf.tag).1 then (parseTag sf.tag).1 else ""

/-- Whether the field carries an explicit valid column-name override. -/
def fieldTagged (sf : GoField) : Bool :=
  fieldColumn1 sf ≠ ""

/-- The field's effective column name: the override, or the field name. -/
def fieldColumn (sf : GoField) : String :=
  if fieldColumn1 sf = "" then sf.name else fieldColumn1 sf

/-- Whether the field's nested columns are promoted into the parent:
explicitly via the `promote` option, or implicitly as an untagged anonymous
embedding — and only when the direct type is a struct. -/
def fieldPromote (sf : GoField) : Bool :=
  (optsContains (parseTag sf.tag).2 "promote" || (sf.anonymous && !fieldTagged sf))
    && (derefT sf.typ).isStruct

/-- The `Field` record built for one declared field. -/
def fieldDesc (i : Nat) (sf : GoField) : FieldD :=
  { column := fieldColumn sf, tagged := fieldTagged sf, index := [i],
    directType := derefT sf.typ, declType := sf.typ }

/-- `newFields` of the source: reflect a struct type into its column map,
eagerly recursing into nested struct types with a threaded visited set, and
merging promoted fields.  The fuel argument is a structural termination
device (one unit per field processed and per type entered); the visited-set
guard makes adequate fuel exist for every (even cyclic) type environment. -/
def buildGo (env : TypeEnv) : Nat → BuildCall →
    Except BuildErr (List (String × FieldD) × List Nat)
  | 0, _ => .error .outOfFuel
  | fuel + 1, .typ tid vis₀ =>
    let vis := tid :: vis₀
    let flds := ((env.get? tid).map GoStructT.fields).getD []
    buildGo env fuel (.loop flds.enum [] vis)
  | _ + 1, .loop [] m vis => .ok (m, vis)
  | fuel + 1, .loop ((i, sf) :: rest) m vis =>
    -- ignore cases
    if sf.anonymous ∧ ¬sf.exported ∧ ¬(derefT sf.typ).isStruct then
      buildGo env fuel (.loop rest m vis)
    else if ¬sf.anonymous ∧ ¬sf.exported then
      buildGo env fuel (.loop rest m vis)
    else if sf.tag = "-" then
      buildGo env fuel (.loop rest m vis)
    else
      -- eager recursion into struct field types, with promotion merging
      match ((match structId? (derefT sf.typ) with
             | some fid =>
               if fid ∈ vis then Except.ok (m, vis)
               else
                 match buildGo env fuel (.typ fid vis) with
                 | .error e => .error (.subErr sf.name e)
                 | .ok (embedded, vis') =>
                   if fieldPromote sf then
                     match promoteMerge (fieldTagged sf) (fieldColumn sf) i
                         sf.name m embedded with
                     | .error e => .error e
                     | .ok m' => .ok (m', vis')
                   else .ok (m, vis')
             | none => Except.ok (m, vis)) :
            Except BuildErr (List (String × FieldD) × List Nat)) with
      | .error e => .error e
      | .ok (m₁, vis₁) =>
        if fieldPromote sf then buildGo env fuel (.loop rest m₁ vis₁)
        else
          match addCol m₁ (fieldColumn sf) (fieldDesc i sf) with
          | none => .error (.duplicate (fieldColumn sf))
          | some m₂ => buildGo env fuel (.loop rest m₂ vis₁)

/-- `newFields` of the source, packaging the built column map as the
type's descriptor (`Fields`). -/
def newFields (env : TypeEnv) (fuel : Nat) (tid : Nat) (vis : List Nat) :
    Except BuildErr (FieldsD × List Nat) :=
  match buildGo env fuel (.typ tid vis) with
  | .error e => .error e
  | .ok (m, vis') => .ok ({ byColumnName := m, tid := tid }, vis')

/-- The per-field "step" of the builder loop (the eager recursion into a
struct field type and the promotion merge), as `buildGo` performs it. -/
def buildStepRes (env : TypeEnv) (fuel : Nat) (i : Nat) (sf : GoField)
    (m : List (String × FieldD)) (vis : List Nat) :
    Except BuildErr (List (String × FieldD) × List Nat) :=
  match structId? (derefT sf.typ) with
  | some fid =>
    if fid ∈ vis then .ok (m, vis)
    else
      match buildGo env fuel (.typ fid vis) with
      | .error e => .error (.subErr sf.name e)
      | .ok (embedded, vis') =>
        if fieldPromote sf then
          match promoteMerge (fieldTagged sf) (fieldColumn sf) i
              sf.name m embedded with
          | .error e => .error e
          | .ok m' => .ok (m', vis')
        else .ok (m, vis')
  | none => .ok (m, vis)

/-- `FieldsFactory` composed with the error-swallowing `Field.Fields()`
accessor: the descriptor of a struct type, `none` for non-struct types or
failed builds.  (The source's process-wide cache only memoises this pure
construction; it is transparent to the model.) -/
def fieldsOf (env : TypeEnv) (fuel : Nat) (t : GoType) : Option FieldsD :=
  match t with
  | .structT id =>
    match newFields env fuel id [] with
    | .ok (fd, _) => some fd
    | .error _ => none
  | _ => none

/-- The callback events of `Fields.traverse`, in emission order: one
`.column` event per requested column (its resolved field and full path, or
`none` for an unresolvable column), and one `.inter` event for every
intermediate nested-relation field crossed while decomposing a column name,
emitted deepest-first after the column event. -/
inductive TravEv where
  | column (res : Option (FieldD × List Nat))
  | inter (fd : FieldD) (path : List Nat)

/-- `Fields.traverse` for a single requested column, fuelled: exact match
first, otherwise split at the first underscore and recurse into the nested
descriptor of the root field, prepending the root field's index sequence.
Emits the events in source callback order. -/
def travColF (env : TypeEnv) (fuel : Nat) : Nat → FieldsD → String → List Nat → List TravEv
  | 0, _, _, _ => []
  | sfuel + 1, f, col, path =>
    match f.byColumnName.lookup col with
    | some field => [.column (some (field, path ++ field.index))]
    | none =>
      let r := cutS col '_'
      match f.byColumnName.lookup r.1 with
      | none => [.column none]
      | some field =>
        match fieldsOf env fuel field.directType with
        | none => [.column none]
        | some sub =>
          let path2 := path ++ field.index
          travColF env fuel sfuel sub r.2.1 path2 ++ [.inter field path2]

/-- `Fields.traverse` for one column (the structural fuel `col.length + 1`
is adequate: the remainder after cutting at an underscore is strictly
shorter, and when no underscore is found the root lookup repeats the
already-failed exact lookup, so the recursion stops). -/
def travCol (env : TypeEnv) (fuel : Nat) (f : FieldsD) (col : String)
    (path : List Nat) : List TravEv :=
  travColF env fuel (col.length + 1) f col path

/-- `Fields.traverse` over a column list (events concatenated in column
order). -/
def traverse (env : TypeEnv) (fuel : Nat) (f : FieldsD) (cols : List String) :
    List TravEv :=
  cols.flatMap (fun c => travCol env fuel f c [])

/-- The payload of the one `.column` event a single-column traversal emits. -/
def colResOf : List TravEv → Option (FieldD × List Nat)
  | [] => none
  | .column res :: _ => res
  | .inter _ _ :: rest => colResOf rest

/-- A compiled per-column targeter.  `discard` binds a throwaway target for
an unknown column; `direct i` addresses field `i` of the root; `deep`
walks the path, allocating (`touching`) nil pointer containers at the
recorded intermediate steps, and addresses the final leaf field.  Each
intermediate step carries the zero value the runtime would allocate there
(`reflect.New(deref(fieldType))`) when the step's field is a pointer. -/
inductive Targeter where
  | discard
  | direct (i : Nat)
  | deep (steps : List (Nat × Option V)) (leaf : Nat)

/-- The allocation plan for a path's intermediate steps, derived from the
field types along the path (the runtime reads these types off the live
`reflect.Value`s; the model precomputes them from the type environment). -/
def allocSteps (env : TypeEnv) (fuel : Nat) : GoType → List Nat → List (Nat × Option V)
  | _, [] => []
  | t, i :: p =>
    let fldTyp :=
      match structId? (derefT t) with
      | some id =>
        match (((env.get? id).map GoStructT.fields).getD []).get? i with
        | some sf => sf.typ
        | none => GoType.scalarT
      | none => GoType.scalarT
    let alloc := if fldTyp.isPtr then zeroVal env fuel (derefT fldTyp) else none
    (i, alloc) :: allocSteps env fuel fldTyp p

/-- Build the targeter for one column from its resolution result, as
`NewFieldsRows` does: discard for unknown columns, a direct field accessor
for length-1 paths, and a touching path walker otherwise. -/
def mkTargeter (env : TypeEnv) (fuel : Nat) (rootT : GoType)
    (res : Option (FieldD × List Nat)) : Targeter :=
  match res with
  | none => .discard
  | some (_, []) => .discard
  | some (_, [i]) => .direct i
  | some (_, path) => .deep (allocSteps env fuel rootT path.dropLast) (path.getLastD 0)

/-- A compiled scan plan: per-column targeters in column order, plus the
deduplicated, depth-sorted (deepest first) collapse set `zeroNilFields`. -/
structure Plan where
  targeters : List Targeter
  zeroNils : List (List Nat)

/-- Insert a path into the collapse set if not already present (the source
keys the set by the path's printed form, which is injective). -/
def zeroNilInsert (acc : List (List Nat)) (p : List Nat) : List (List Nat) :=
  if p ∈ acc then acc else acc ++ [p]

/-- Collect the collapse set from traversal events: every intermediate
nested field whose declared type is a pointer. -/
def zeroNilsOfEvents : List TravEv → List (List Nat) → List (List Nat)
  | [], acc => acc
  | .column _ :: rest, acc => zeroNilsOfEvents rest acc
  | .inter fd p :: rest, acc =>
    zeroNilsOfEvents rest (if fd.declType.isPtr then zeroNilInsert acc p else acc)

/-- Stable insertion into a list sorted by length, descending. -/
def insertByLen (p : List Nat) : List (List Nat) → List (List Nat)
  | [] => [p]
  | q :: rest => if q.length < p.length then p :: q :: rest else q :: insertByLen p rest

/-- Sort paths by length, descending (one admissible outcome of the
source's `slices.SortFunc(..., cmp.Compare(len(b), len(a)))`). -/
def sortByLenDesc : List (List Nat) → List (List Nat)
  | [] => []
  | p :: rest => insertByLen p (sortByLenDesc rest)

/-- `NewFieldsRows`: compile the scan plan for a query's columns against a
destination descriptor — per-column targeters plus the depth-sorted
deduplicated collapse set.  Unknown columns get a discard targeter; plan
compilation itself never fails. -/
def newFieldsRows (env : TypeEnv) (fuel : Nat) (f : FieldsD)
    (cols : List String) : Plan :=
  { targeters := cols.map (fun c =>
      mkTargeter env fuel (.structT f.tid) (colResOf (travCol env fuel f c []))),
    zeroNils := sortByLenDesc (zeroNilsOfEvents (traverse env fuel f cols) []) }

/-- Touch rule of the deep targeter: allocate a zero-valued instance into a
nil pointer container (non-pointer containers and already-set pointers are
left alone). -/
def allocIfNil (az : Option V) (fv : V) : V :=
  match fv, az with
  | .ptr none, some z => .ptr (some z)
  | _, _ => fv

/-- Walk a deep targeter's intermediate steps on a live value, touching nil
pointer containers along the way (the final leaf is only addressed, never
touched). -/
def touchSteps : V → List (Nat × Option V) → V
  | v, [] => v
  | v, (i, az) :: rest =>
    updatePath v [i] (fun fv => touchSteps (allocIfNil az fv) rest)

/-- The touching side effect of invoking one targeter. -/
def runTargeterTouch : Targeter → V → V
  | .discard, v => v
  | .direct _, v => v
  | .deep steps _, v => touchSteps v steps

/-- The full field path a targeter's returned address denotes (`none` for a
discard target). -/
def targeterPath : Targeter → Option (List Nat)
  | .discard => none
  | .direct i => some [i]
  | .deep steps leaf => some (steps.map Prod.fst ++ [leaf])

/-- Invoke all targeters in column order (address collection phase). -/
def touchAll (ts : List Targeter) (v : V) : V :=
  ts.foldl (fun v t => runTargeterTouch t v) v

/-- The writes `rows.Scan` performs through the collected addresses: each
column's cell lands at its targeter's path (discarded columns write
nowhere). -/
def writeAll (ts : List Targeter) (cells : List Int) (v : V) : V :=
  (ts.zip cells).foldl (fun v tc =>
    match targeterPath tc.1 with
    | some p => updatePath v p (fun _ => .int tc.2)
    | none => v) v

/-- Errors of `FieldsRows.Scan`: a failed row-scan primitive, the source's
"failed to nil out field on path" error (invalid value met while walking a
collapse path), or the panic `v.Elem()` would raise on a non-pointer. -/
inductive ScanErr where
  | scanFailed
  | nilOutInvalid (path : List Nat)
  | elemPanic (path : List Nat)

/-- One step of the collapse pass at path `p`: walk to the field (erroring
on an invalid value along the way), skip nil pointers, and reset the field
to nil when the pointee is zero. -/
def collapseStep (val : V) (p : List Nat) : Except ScanErr V :=
  match readPath val p with
  | none => .error (.nilOutInvalid p)
  | some (.ptr none) => .ok val
  | some (.ptr (some u)) =>
    if isZeroV u then .ok (updatePath val p (fun _ => .ptr none)) else .ok val
  | some _ => .error (.elemPanic p)

/-- The post-scan collapse pass over the plan's collapse set, aborting (and
leaving the destination as mutated so far) on the first error. -/
def collapsePass (paths : List (List Nat)) (val : V) : V × Option ScanErr :=
  match paths with
  | [] => (val, none)
  | p :: rest =>
    match collapseStep val p with
    | .error e => (val, some e)
    | .ok val2 => collapsePass rest val2

/-- `FieldsRows.Scan`: run every targeter on the destination (allocating
intermediate containers), hand the collected addresses to the row-scan
primitive, and on success run the collapse pass.  The returned `V` is the
state of the caller-visible destination after the call — the source mutates
the destination in place through the collected pointers, so a failing scan
still leaves the touch-phase allocations behind.  The row-scan primitive is
modelled by its outcome: the scanned cells, or a driver error. -/
def fieldsRowsScan (plan : Plan) (row : Except Unit (List Int)) (v0 : V) :
    V × Option ScanErr :=
  let v1 := touchAll plan.targeters v0
  match row with
  | .error _ => (v1, some .scanFailed)
  | .ok cells =>
    let v2 := writeAll plan.targeters cells v1
    collapsePass plan.zeroNils v2

/-- `StructFields.fieldTargeter` of the legacy `sqlp/internal/reflectp`
package: resolve one column with the same exact-match-then-split algorithm,
but *fail* with an "unknown column" error when the column cannot be
resolved — the strict behaviour, fixed, not configurable.  Only the
resolution/error structure is modelled (the returned targeter closure is
elided). -/
def fieldTargeterF (env : TypeEnv) (fuel : Nat) : Nat → FieldsD → String →
    Except String Unit
  | 0, _, col => .error ("unknown column " ++ col)
  | sfuel + 1, f, col =>
    match f.byColumnName.lookup col with
    | some _ => .ok ()
    | none =>
      let r := cutS col '_'
      match f.byColumnName.lookup r.1 with
      | none => .error ("unknown column " ++ col)
      | some field =>
        match fieldsOf env fuel field.directType with
        | none => .error ("unknown column " ++ col)
        | some sub => fieldTargeterF env fuel sfuel sub r.2.1

/-- The legacy resolver, at the adequate structural fuel. -/
def fieldTargeterM (env : TypeEnv) (fuel : Nat) (f : FieldsD) (col : String) :
    Except String Unit :=
  fieldTargeterF env fuel (col.length + 1) f col

/-! ## Concrete environments used as witnesses and counterexamples -/

/-- The canonical self-referential destination type of the specification:
`Person { ID int "sqlp:id"; Name string "sqlp:name"; Child *Person "sqlp:child" }`. -/
def personEnv : TypeEnv :=
  [ { fields :=
      [ { name := "ID", anonymous := false, exported := true, tag := "id", typ := .scalarT },
        { name := "Name", anonymous := false, exported := true, tag := "name", typ := .scalarT },
        { name := "Child", anonymous := false, exported := true, tag := "child",
          typ := .ptrT (.structT 0) } ] } ]

/-- The descriptor `newFields` builds for `personEnv`. -/
def personFD : FieldsD :=
  FieldsD.mk
    [ ("id", FieldD.mk "id" true [0] .scalarT .scalarT),
      ("name", FieldD.mk "name" true [1] .scalarT .scalarT),
      ("child", FieldD.mk "child" true [2] (.structT 0) (.ptrT (.structT 0))) ] 0

/-- The specification's canonical two-level column list. -/
def personCols : List String :=
  ["id", "name", "child_id", "child_name", "child_child_id", "child_child_name"]

/-- The plan compiled for the canonical column list. -/
def personPlan : Plan := newFieldsRows personEnv 10 personFD personCols

/-- A fresh (zero) `Person` destination instance. -/
def freshPerson : V := .strukt [.int 0, .int 0, .ptr none]

/-- `T { Child Sub "sqlp:,promote" }` with `Sub { X int }`: a *named*
(non-anonymous, non-tagged) field carrying only the `promote` option. -/
def promoteEnv : TypeEnv :=
  [ { fields :=
      [ { name := "Child", anonymous := false, exported := true,
          tag := ",promote", typ := .structT 1 } ] },
    { fields :=
      [ { name := "X", anonymous := false, exported := true,
          tag := "", typ := .scalarT } ] } ]

/-- `T { A Sub "sqlp:,promote"; B Sub "sqlp:,promote" }` with `Sub { X int }`:
two promoted fields of the same struct type, merging to the same column. -/
def dupPromoteEnv : TypeEnv :=
  [ { fields :=
      [ { name := "A", anonymous := false, exported := true, tag := ",promote",
          typ := .structT 1 },
        { name := "B", anonymous := false, exported := true, tag := ",promote",
          typ := .structT 1 } ] },
    { fields :=
      [ { name := "X", anonymous := false, exported := true,
          tag := "", typ := .scalarT } ] } ]

/-- `P { S }` where the anonymous embedded field has type `*S` (promoted
pointer embed) and `S { X int }`. -/
def promoPtrEnv : TypeEnv :=
  [ { fields :=
      [ { name := "S", anonymous := true, exported := true,
          tag := "", typ := .ptrT (.structT 1) } ] },
    { fields :=
      [ { name := "X", anonymous := false, exported := true,
          tag := "", typ := .scalarT } ] } ]

/-- The descriptor built for `promoPtrEnv`'s root type. -/
def promoPtrFD : FieldsD :=
  FieldsD.mk [("X", FieldD.mk "X" false [0, 0] .scalarT .scalarT)] 0

/-! ## Deep-targeter touch safety (claim C7) -/

/-- A value is "present": not a nil pointer (the only shape a scan would
dereference into a panic). -/
def presentV : V → Bool
  | .ptr none => false
  | _ => true

/-- Shape-compatibility of a live value with a deep targeter's step plan:
each step's field index exists in the current container (a struct, or a
pointer to one — one `reflect.Indirect` per step), and after the step's
touch (`allocIfNil`) the walk can continue; the final container holds the
leaf index. -/
def fitsSteps : V → List (Nat × Option V) → Nat → Bool
  | v, [], leaf =>
    match v with
    | .strukt fs => decide (leaf < fs.length)
    | .ptr (some (.strukt fs)) => decide (leaf < fs.length)
    | _ => false
  | v, (i, az) :: rest, leaf =>
    match v with
    | .strukt fs =>
      match fs[i]? with
      | some fv => fitsSteps (allocIfNil az fv) rest leaf
      | none => false
    | .ptr (some (.strukt fs)) =>
      match fs[i]? with
      | some fv => fitsSteps (allocIfNil az fv) rest leaf
      | none => false
    | _ => false

/-! ## Fuel adequacy: self-referential termination (claim C6) -/

/-- A build error that does not stem from fuel exhaustion (the fuel is an
artefact of the embedding; the source recursion has no counter, so a result
whose only possible errors are fuel-free witnesses source termination). -/
def errFuelFree : BuildErr → Bool
  | .outOfFuel => false
  | .subErr _ e => errFuelFree e
  | .duplicate _ => true
  | .duplicateEmbedded _ _ => true

/-- The builder either succeeded or failed for a genuine (fuel-free)
reason. -/
def okOrFuelFree : Except BuildErr (List (String × FieldD) × List Nat) → Prop
  | .ok _ => True
  | .error e => errFuelFree e = true

/-- Every struct type a field refers to exists in the environment. -/
def wfField (env : TypeEnv) (sf : GoField) : Bool :=
  match structId? (derefT sf.typ) with
  | some fid => decide (fid < env.length)
  | none => true

/-- A closed type environment: all struct references resolve. -/
def wfEnv (env : TypeEnv) : Bool :=
  env.all (fun st => st.fields.all (wfField env))

/-- How many declared struct types are not yet in the visited set. -/
def unvisited (env : TypeEnv) (vis : List Nat) : Nat :=
  ((List.range env.length).filter (fun t => decide (t ∉ vis))).length

/-- The largest field count of any declared struct type. -/
def maxFields (env : TypeEnv) : Nat :=
  env.foldr (fun st m => max st.fields.length m) 0

/-- The visited set of a builder call. -/
def visOfCall : BuildCall → List Nat
  | .typ _ vis => vis
  | .loop _ _ vis => vis

/-- A pointer position already in its final state: present, fully collapsed,
and non-zero — the collapse pass will not change it. -/
def Settled (v : V) (q : List Nat) : Prop :=
  ∃ u, readPath v q = some (.ptr (some u)) ∧ collapseAll u = u ∧ isZeroV u = false

/-- A pointer (nil or not) sits at path `q` of the value. -/
def isPtrAt (v : V) (q : List Nat) : Bool :=
  match readPath v q with
  | some (.ptr _) => true
  | _ => false

/-- Induction over `V` with a membership hypothesis for struct fields. -/
theorem V.inductionOn {motive : V → Prop}
    (hint : ∀ n, motive (.int n))
    (hnone : motive (.ptr none))
    (hsome : ∀ u, motive u → motive (.ptr (some u)))
    (hstr : ∀ fs, (∀ f ∈ fs, motive f) → motive (.strukt fs)) :
    ∀ v, motive v
  | .int n => hint n
  | .ptr none => hnone
  | .ptr (some u) => hsome u (V.inductionOn hint hnone hsome hstr u)
  | .strukt fs => hstr fs (fun f hf =>
      have : sizeOf f < sizeOf (V.strukt fs) := by
        have h1 := List.sizeOf_lt_of_mem hf
        simp only [V.strukt.sizeOf_spec]
        omega
      V.inductionOn hint hnone hsome hstr f)
termination_by v => sizeOf v

theorem cutChars_rest_length_le (sep : Char) :
    ∀ cs : List Char, (cutChars sep cs).2.1.length ≤ cs.length := by
  intro cs
  induction cs with
  | nil => simp [cutChars]
  | cons c cs ih =>
    simp only [cutChars]
    split
    · simp
    · simp only [List.length_cons]
      omega

/-! ## Column resolution (`Fields.traverse`), plan compilation
(`NewFieldsRows`) and row scanning (`FieldsRows.Scan`) -/

theorem cutChars_not_found {sep : Char} {cs : List Char}
    (h : (cutChars sep cs).2.2 = false) : (cutChars sep cs).1 = cs := by
  induction cs with
  | nil => simp [cutChars]
  | cons c cs ih =>
    simp only [cutChars] at h ⊢
    by_cases hc : c = sep
    · simp [hc] at h
    · simp only [if_neg hc] at h ⊢
      exact congrArg (c :: ·) (ih h)

theorem cutChars_found_length_lt {sep : Char} {cs : List Char}
    (h : (cutChars sep cs).2.2 = true) : (cutChars sep cs).2.1.length < cs.length := by
  induction cs with
  | nil => simp [cutChars] at h
  | cons c cs ih =>
    simp only [cutChars] at h ⊢
    by_cases hc : c = sep
    · simp [hc]
    · simp only [if_neg hc] at h ⊢
      have := ih h
      simp only [List.length_cons]
      omega

/-! ## Navigation toolkit -/

theorem readFieldL_eq (fs : List V) (i : Nat) (p : List Nat) :
    readFieldL fs i p =
      match fs[i]? with
      | some f => readPath f p
      | none => none := by
  induction fs generalizing i with
  | nil => cases i <;> rfl
  | cons f fs ih =>
    cases i with
    | zero => simp [readFieldL]
    | succ j => simpa [readFieldL] using ih j

theorem updateFieldL_eq (fs : List V) (i : Nat) (p : List Nat) (g : V → V) :
    updateFieldL fs i p g =
      match fs[i]? with
      | some f => fs.set i (updatePath f p g)
      | none => fs := by
  induction fs generalizing i with
  | nil => cases i <;> rfl
  | cons f fs ih =>
    cases i with
    | zero => simp [updateFieldL]
    | succ j =>
      simp only [updateFieldL, List.getElem?_cons_succ]
      cases h : fs[j]? with
      | none => simpa [h] using congrArg (f :: ·) (by simpa [h] using ih j)
      | some f2 => simpa [h, List.set_cons_succ] using congrArg (f :: ·) (by simpa [h] using ih j)

theorem readPath_nil (v : V) : readPath v [] = some v := by
  cases v with
  | int n => rfl
  | ptr o => cases o <;> rfl
  | strukt fs => rfl

theorem updatePath_nil (v : V) (g : V → V) : updatePath v [] g = g v := by
  cases v with
  | int n => rfl
  | ptr o => cases o <;> rfl
  | strukt fs => rfl

theorem readPath_int (n : Int) (i : Nat) (p : List Nat) :
    readPath (.int n) (i :: p) = none := rfl

theorem readPath_ptrNone (i : Nat) (p : List Nat) :
    readPath (.ptr none) (i :: p) = none := rfl

theorem readPath_strukt (fs : List V) (i : Nat) (p : List Nat) :
    readPath (.strukt fs) (i :: p) =
      match fs[i]? with
      | some f => readPath f p
      | none => none := by
  simpa [readPath] using readFieldL_eq fs i p

theorem readPath_ptrSome (u : V) (i : Nat) (p : List Nat) :
    readPath (.ptr (some u)) (i :: p) =
      match u with
      | .strukt fs => readPath (.strukt fs) (i :: p)
      | _ => none := by
  cases u with
  | int n => rfl
  | ptr o => cases o <;> rfl
  | strukt fs => rfl

theorem readPath_append (v : V) (p s : List Nat) :
    readPath v (p ++ s) = (readPath v p).bind (fun w => readPath w s) := by
  induction p generalizing v with
  | nil => simp [readPath]
  | cons i p ih =>
    have hstep : ∀ fs : List V, readPath (V.strukt fs) ((i :: p) ++ s) =
        (readPath (V.strukt fs) (i :: p)).bind (fun w => readPath w s) := by
      intro fs
      rw [List.cons_append, readPath_strukt, readPath_strukt]
      cases h : fs[i]? with
      | none => rfl
      | some f => simpa using ih f
    cases v with
    | int n => simp [readPath_int]
    | ptr o =>
      cases o with
      | none => simp [readPath_ptrNone]
      | some u =>
        rw [List.cons_append, readPath_ptrSome]
        conv_rhs => rw [readPath_ptrSome]
        cases u with
        | int n => rfl
        | ptr o2 => rfl
        | strukt fs => simpa using hstep fs
    | strukt fs => exact hstep fs

theorem updatePath_int (n : Int) (i : Nat) (p : List Nat) (g : V → V) :
    updatePath (.int n) (i :: p) g = .int n := rfl

theorem updatePath_ptrNone (i : Nat) (p : List Nat) (g : V → V) :
    updatePath (.ptr none) (i :: p) g = .ptr none := rfl

theorem updatePath_strukt (fs : List V) (i : Nat) (p : List Nat) (g : V → V) :
    updatePath (.strukt fs) (i :: p) g = .strukt (updateFieldL fs i p g) := rfl

theorem updatePath_ptrSome (u : V) (i : Nat) (p : List Nat) (g : V → V) :
    updatePath (.ptr (some u)) (i :: p) g =
      match u with
      | .strukt fs => .ptr (some (.strukt (updateFieldL fs i p g)))
      | _ => .ptr (some u) := by
  cases u with
  | int n => rfl
  | ptr o => cases o <;> rfl
  | strukt fs => rfl

theorem getElem?_set_self_of_some {l : List V} {i : Nat} {f : V}
    (h : l[i]? = some f) (a : V) : (l.set i a)[i]? = some a :=
  List.getElem?_set_eq_of_lt a (List.getElem?_eq_some.mp h).1

theorem updatePath_frame (p : List Nat) :
    ∀ (v : V) (q : List Nat) (g : V → V), ¬ p <+: q → ¬ q <+: p →
      readPath (updatePath v p g) q = readPath v q := by
  induction p with
  | nil =>
    intro v q g hpq _
    exact absurd List.nil_prefix hpq
  | cons i p ih =>
    intro v q g hpq hqp
    cases q with
    | nil => exact absurd List.nil_prefix hqp
    | cons j q' =>
      have key : ∀ fs : List V,
          readFieldL (updateFieldL fs i p g) j q' = readFieldL fs j q' := by
        intro fs
        rw [readFieldL_eq, readFieldL_eq, updateFieldL_eq]
        cases hfi : fs[i]? with
        | none => rfl
        | some f =>
          by_cases hij : i = j
          · subst hij
            rw [getElem?_set_self_of_some hfi, hfi]
            have hp : ¬ p <+: q' := fun hc => hpq (by
              exact (List.prefix_cons_inj i).mpr hc)
            have hq : ¬ q' <+: p := fun hc => hqp (by
              exact (List.prefix_cons_inj i).mpr hc)
            exact ih f q' g hp hq
          · rw [List.getElem?_set_ne hij]
      cases v with
      | int n => rfl
      | ptr o =>
        cases o with
        | none => rfl
        | some u =>
          cases u with
          | int n => rfl
          | ptr o2 => rfl
          | strukt fs => exact key fs
      | strukt fs => exact key fs

theorem readPath_updatePath_self (p : List Nat) :
    ∀ (v w : V) (g : V → V), readPath v p = some w →
      readPath (updatePath v p g) p = some (g w) := by
  induction p with
  | nil =>
    intro v w g hv
    have hv2 : v = w := by simpa [readPath_nil] using hv
    subst hv2
    rw [updatePath_nil, readPath_nil]
  | cons i p ih =>
    intro v w g hv
    have key : ∀ fs : List V, readFieldL fs i p = some w →
        readFieldL (updateFieldL fs i p g) i p = some (g w) := by
      intro fs hfs
      rw [readFieldL_eq] at hfs
      rw [readFieldL_eq, updateFieldL_eq]
      cases hfi : fs[i]? with
      | none => rw [hfi] at hfs; exact absurd hfs (by simp)
      | some f =>
        simp only [hfi] at hfs
        simp only [hfi, getElem?_set_self_of_some hfi]
        exact ih f w g hfs
    cases v with
    | int n => exact absurd hv (by simp [readPath_int])
    | ptr o =>
      cases o with
      | none => exact absurd hv (by simp [readPath_ptrNone])
      | some u =>
        cases u with
        | int n => exact absurd hv (by simp [readPath_ptrSome])
        | ptr o2 => exact absurd hv (by simp [readPath_ptrSome])
        | strukt fs => exact key fs hv
    | strukt fs => exact key fs hv

/-- Updating strictly below position `q` leaves a value at `q`, namely the
old value updated at the relative path. -/
theorem readPath_updatePath_ancestor (q : List Nat) :
    ∀ (v w : V) (p : List Nat) (g : V → V), p ≠ [] → readPath v q = some w →
      readPath (updatePath v (q ++ p) g) q = some (updatePath w p g) := by
  induction q with
  | nil =>
    intro v w p g hp hv
    have hv2 : v = w := by simpa [readPath] using hv
    subst hv2
    cases p with
    | nil => exact absurd rfl hp
    | cons i p' => simp [readPath]
  | cons j q' ih =>
    intro v w p g hp hv
    have key : ∀ fs : List V, readFieldL fs j q' = some w →
        readFieldL (updateFieldL fs j (q' ++ p) g) j q' = some (updatePath w p g) := by
      intro fs hfs
      rw [readFieldL_eq] at hfs
      rw [readFieldL_eq, updateFieldL_eq]
      cases hfi : fs[j]? with
      | none => rw [hfi] at hfs; exact absurd hfs (by simp)
      | some f =>
        simp only [hfi] at hfs
        simp only [hfi, getElem?_set_self_of_some hfi]
        exact ih f w p g hp hfs
    cases v with
    | int n => exact absurd hv (by simp [readPath_int])
    | ptr o =>
      cases o with
      | none => exact absurd hv (by simp [readPath_ptrNone])
      | some u =>
        cases u with
        | int n => exact absurd hv (by simp [readPath_ptrSome])
        | ptr o2 => exact absurd hv (by simp [readPath_ptrSome])
        | strukt fs => exact key fs hv
    | strukt fs => exact key fs hv

theorem isZeroL_eq_all (fs : List V) : isZeroL fs = fs.all (fun f => isZeroV f) := by
  induction fs with
  | nil => rfl
  | cons f fs ih => simp [isZeroL, ih]

theorem deepZeroL_eq_all (fs : List V) : deepZeroL fs = fs.all (fun f => deepZero f) := by
  induction fs with
  | nil => rfl
  | cons f fs ih => simp [deepZeroL, ih]

theorem structPointeesL_eq_all (fs : List V) :
    structPointeesL fs = fs.all (fun f => structPointees f) := by
  induction fs with
  | nil => rfl
  | cons f fs ih => simp [structPointeesL, ih]

theorem collapseGEL_eq_map (n : Nat) (fs : List V) :
    collapseGEL n fs = fs.map (fun f => collapseGE n f) := by
  induction fs with
  | nil => rfl
  | cons f fs ih => simp [collapseGEL, ih]

theorem collapseGE_strukt (n : Nat) (fs : List V) :
    collapseGE n (.strukt fs) = .strukt (fs.map (fun f => collapseGE (n - 1) f)) := by
  simp [collapseGE, collapseGEL_eq_map]

theorem collapseAll_strukt (fs : List V) :
    collapseAll (.strukt fs) = .strukt (fs.map (fun f => collapseAll f)) := by
  simp [collapseAll, collapseGE_strukt]

theorem collapseAll_ptrSome (u : V) :
    collapseAll (.ptr (some u)) =
      if isZeroV (collapseAll u) then .ptr none else .ptr (some (collapseAll u)) := by
  simp [collapseAll, collapseGE]

theorem collapseAll_ptrNone : collapseAll (.ptr none) = .ptr none := rfl

theorem collapseAll_int (n : Int) : collapseAll (.int n) = .int n := rfl

theorem mem_ptrSomePathsL (fs : List V) :
    ∀ (k : Nat) (q : List Nat), q ∈ ptrSomePathsL k fs ↔
      ∃ j f q₂, fs[j]? = some f ∧ q = (k + j) :: q₂ ∧ q₂ ∈ ptrSomePaths f := by
  induction fs with
  | nil => intro k q; simp [ptrSomePathsL]
  | cons f fs ih =>
    intro k q
    simp only [ptrSomePathsL, List.mem_append, List.mem_map, ih]
    constructor
    · rintro (⟨q₂, hq₂, rfl⟩ | ⟨j, f2, q₂, hj, rfl, hq₂⟩)
      · exact ⟨0, f, q₂, by simp, by simp, hq₂⟩
      · refine ⟨j + 1, f2, q₂, by simpa using hj, ?_, hq₂⟩
        have harith : k + 1 + j = k + (j + 1) := by omega
        rw [harith]
    · rintro ⟨j, f2, q₂, hj, rfl, hq₂⟩
      cases j with
      | zero =>
        left
        refine ⟨q₂, ?_, by simp⟩
        simp at hj
        rwa [hj]
      | succ j2 =>
        right
        refine ⟨j2, f2, q₂, by simpa using hj, ?_, hq₂⟩
        have harith : k + (j2 + 1) = k + 1 + j2 := by omega
        rw [harith]

theorem ptrSomePaths_int (n : Int) : ptrSomePaths (.int n) = [] := rfl

theorem ptrSomePaths_ptrNone : ptrSomePaths (.ptr none) = [] := rfl

theorem ptrSomePaths_ptrSome (u : V) : ptrSomePaths (.ptr (some u)) =
    [] :: (match u with | .strukt fs => ptrSomePaths (.strukt fs) | _ => []) := by
  cases u <;> rfl

theorem ptrSomePaths_strukt (fs : List V) :
    ptrSomePaths (.strukt fs) = ptrSomePathsL 0 fs := rfl

theorem mem_ptrSomePaths (v : V) :
    ∀ (q : List Nat), q ∈ ptrSomePaths v ↔
      ∃ u, readPath v q = some (.ptr (some u)) := by
  induction v using V.inductionOn with
  | hint n =>
    intro q
    rw [ptrSomePaths_int]
    cases q with
    | nil => rw [readPath_nil]; simp
    | cons i p => rw [readPath_int]; simp
  | hnone =>
    intro q
    rw [ptrSomePaths_ptrNone]
    cases q with
    | nil => rw [readPath_nil]; simp
    | cons i p => rw [readPath_ptrNone]; simp
  | hsome u ih =>
    intro q
    cases q with
    | nil =>
      rw [readPath_nil]
      constructor
      · intro _; exact ⟨u, rfl⟩
      · intro _
        show [] ∈ ptrSomePaths (.ptr (some u))
        cases u with
        | int n => exact List.mem_cons_self _ _
        | ptr o => cases o <;> exact List.mem_cons_self _ _
        | strukt fs => exact List.mem_cons_self _ _
    | cons i p =>
      cases u with
      | int n =>
        have h1 : ptrSomePaths (V.ptr (some (.int n))) = [[]] := rfl
        have h2 : readPath (V.ptr (some (.int n))) (i :: p) = none := rfl
        rw [h1, h2]
        simp
      | ptr o =>
        have h1 : ptrSomePaths (V.ptr (some (.ptr o))) = [[]] := by cases o <;> rfl
        have h2 : readPath (V.ptr (some (.ptr o))) (i :: p) = none := by cases o <;> rfl
        rw [h1, h2]
        simp
      | strukt fs =>
        have h1 : ptrSomePaths (V.ptr (some (.strukt fs))) =
            [] :: ptrSomePaths (.strukt fs) := rfl
        have h2 : readPath (V.ptr (some (.strukt fs))) (i :: p) =
            readPath (.strukt fs) (i :: p) := rfl
        rw [h1, h2]
        have h3 : ((i :: p) ∈ ([] : List Nat) :: ptrSomePaths (.strukt fs)) ↔
            ((i :: p) ∈ ptrSomePaths (.strukt fs)) := by simp
        rw [h3]
        exact ih (i :: p)
  | hstr fs ih =>
    intro q
    rw [ptrSomePaths_strukt]
    cases q with
    | nil =>
      rw [readPath_nil]
      rw [mem_ptrSomePathsL]
      constructor
      · rintro ⟨j, f, q₂, _, h, _⟩; exact absurd h (by simp)
      · rintro ⟨u, hu⟩; exact absurd hu (by simp)
    | cons i p =>
      rw [readPath_strukt]
      rw [mem_ptrSomePathsL]
      constructor
      · rintro ⟨j, f, q₂, hj, heq, hq₂⟩
        have hj2 : j = i := by
          have := congrArg (fun l => List.headD l 0) heq
          simpa using this.symm
        have hq2 : q₂ = p := by
          have := congrArg List.tail heq
          simpa using this.symm
        subst hj2
        subst hq2
        rw [hj]
        exact (ih f (List.getElem?_mem hj) q₂).mp hq₂
      · intro hu
        cases hfi : fs[i]? with
        | none => rw [hfi] at hu; exact absurd hu (by simp)
        | some f =>
          rw [hfi] at hu
          exact ⟨i, f, p, hfi, by simp, (ih f (List.getElem?_mem hfi) p).mpr hu⟩

theorem mem_ptrPathsL (fs : List V) :
    ∀ (k : Nat) (q : List Nat), q ∈ ptrPathsL k fs ↔
      ∃ j f q₂, fs[j]? = some f ∧ q = (k + j) :: q₂ ∧ q₂ ∈ ptrPaths f := by
  induction fs with
  | nil => intro k q; simp [ptrPathsL]
  | cons f fs ih =>
    intro k q
    simp only [ptrPathsL, List.mem_append, List.mem_map, ih]
    constructor
    · rintro (⟨q₂, hq₂, rfl⟩ | ⟨j, f2, q₂, hj, rfl, hq₂⟩)
      · exact ⟨0, f, q₂, by simp, by simp, hq₂⟩
      · refine ⟨j + 1, f2, q₂, by simpa using hj, ?_, hq₂⟩
        have harith : k + 1 + j = k + (j + 1) := by omega
        rw [harith]
    · rintro ⟨j, f2, q₂, hj, rfl, hq₂⟩
      cases j with
      | zero =>
        left
        refine ⟨q₂, ?_, by simp⟩
        simp at hj
        rwa [hj]
      | succ j2 =>
        right
        refine ⟨j2, f2, q₂, by simpa using hj, ?_, hq₂⟩
        have harith : k + (j2 + 1) = k + 1 + j2 := by omega
        rw [harith]

theorem mem_ptrPaths (v : V) :
    ∀ (q : List Nat), q ∈ ptrPaths v ↔
      ∃ o, readPath v q = some (.ptr o) := by
  induction v using V.inductionOn with
  | hint n =>
    intro q
    have h1 : ptrPaths (.int n) = [] := rfl
    rw [h1]
    cases q with
    | nil => rw [readPath_nil]; simp
    | cons i p => rw [readPath_int]; simp
  | hnone =>
    intro q
    have h1 : ptrPaths (.ptr none) = [[]] := rfl
    rw [h1]
    cases q with
    | nil => rw [readPath_nil]; simp
    | cons i p => rw [readPath_ptrNone]; simp
  | hsome u ih =>
    intro q
    cases q with
    | nil =>
      rw [readPath_nil]
      constructor
      · intro _; exact ⟨some u, rfl⟩
      · intro _
        show [] ∈ ptrPaths (.ptr (some u))
        cases u with
        | int n => exact List.mem_cons_self _ _
        | ptr o => cases o <;> exact List.mem_cons_self _ _
        | strukt fs => exact List.mem_cons_self _ _
    | cons i p =>
      cases u with
      | int n =>
        have h1 : ptrPaths (V.ptr (some (.int n))) = [[]] := rfl
        have h2 : readPath (V.ptr (some (.int n))) (i :: p) = none := rfl
        rw [h1, h2]
        simp
      | ptr o =>
        have h1 : ptrPaths (V.ptr (some (.ptr o))) = [[]] := by cases o <;> rfl
        have h2 : readPath (V.ptr (some (.ptr o))) (i :: p) = none := by cases o <;> rfl
        rw [h1, h2]
        simp
      | strukt fs =>
        have h1 : ptrPaths (V.ptr (some (.strukt fs))) =
            [] :: ptrPaths (.strukt fs) := rfl
        have h2 : readPath (V.ptr (some (.strukt fs))) (i :: p) =
            readPath (.strukt fs) (i :: p) := rfl
        rw [h1, h2]
        have h3 : ((i :: p) ∈ ([] : List Nat) :: ptrPaths (.strukt fs)) ↔
            ((i :: p) ∈ ptrPaths (.strukt fs)) := by simp
        rw [h3]
        exact ih (i :: p)
  | hstr fs ih =>
    intro q
    have h0 : ptrPaths (.strukt fs) = ptrPathsL 0 fs := rfl
    rw [h0]
    cases q with
    | nil =>
      rw [readPath_nil]
      rw [mem_ptrPathsL]
      constructor
      · rintro ⟨j, f, q₂, _, h, _⟩; exact absurd h (by simp)
      · rintro ⟨o, ho⟩; exact absurd ho (by simp)
    | cons i p =>
      rw [readPath_strukt]
      rw [mem_ptrPathsL]
      constructor
      · rintro ⟨j, f, q₂, hj, heq, hq₂⟩
        have hj2 : j = i := by
          have := congrArg (fun l => List.headD l 0) heq
          simpa using this.symm
        have hq2 : q₂ = p := by
          have := congrArg List.tail heq
          simpa using this.symm
        subst hj2
        subst hq2
        rw [hj]
        exact (ih f (List.getElem?_mem hj) q₂).mp hq₂
      · intro hu
        cases hfi : fs[i]? with
        | none => rw [hfi] at hu; exact absurd hu (by simp)
        | some f =>
          rw [hfi] at hu
          exact ⟨i, f, p, hfi, by simp, (ih f (List.getElem?_mem hfi) p).mpr hu⟩

theorem mem_nonzeroIntPathsL (fs : List V) :
    ∀ (k : Nat) (q : List Nat), q ∈ nonzeroIntPathsL k fs ↔
      ∃ j f q₂, fs[j]? = some f ∧ q = (k + j) :: q₂ ∧ q₂ ∈ nonzeroIntPaths f := by
  induction fs with
  | nil => intro k q; simp [nonzeroIntPathsL]
  | cons f fs ih =>
    intro k q
    simp only [nonzeroIntPathsL, List.mem_append, List.mem_map, ih]
    constructor
    · rintro (⟨q₂, hq₂, rfl⟩ | ⟨j, f2, q₂, hj, rfl, hq₂⟩)
      · exact ⟨0, f, q₂, by simp, by simp, hq₂⟩
      · refine ⟨j + 1, f2, q₂, by simpa using hj, ?_, hq₂⟩
        have harith : k + 1 + j = k + (j + 1) := by omega
        rw [harith]
    · rintro ⟨j, f2, q₂, hj, rfl, hq₂⟩
      cases j with
      | zero =>
        left
        refine ⟨q₂, ?_, by simp⟩
        simp at hj
        rwa [hj]
      | succ j2 =>
        right
        refine ⟨j2, f2, q₂, by simpa using hj, ?_, hq₂⟩
        have harith : k + (j2 + 1) = k + 1 + j2 := by omega
        rw [harith]

theorem mem_nonzeroIntPaths (v : V) :
    ∀ (q : List Nat), q ∈ nonzeroIntPaths v ↔
      ∃ c : Int, readPath v q = some (.int c) ∧ c ≠ 0 := by
  induction v using V.inductionOn with
  | hint n =>
    intro q
    have h1 : nonzeroIntPaths (.int n) = if n = 0 then [] else [[]] := rfl
    rw [h1]
    cases q with
    | nil =>
      rw [readPath_nil]
      by_cases hn : n = 0
      · simp [hn]
      · simp [hn]
    | cons i p =>
      rw [readPath_int]
      by_cases hn : n = 0 <;> simp [hn]
  | hnone =>
    intro q
    have h1 : nonzeroIntPaths (.ptr none) = [] := rfl
    rw [h1]
    cases q with
    | nil => rw [readPath_nil]; simp
    | cons i p => rw [readPath_ptrNone]; simp
  | hsome u ih =>
    intro q
    cases q with
    | nil =>
      rw [readPath_nil]
      have h1 : [] ∉ nonzeroIntPaths (.ptr (some u)) := by
        cases u with
        | int n =>
          show [] ∉ ([] : List (List Nat))
          simp
        | ptr o =>
          show [] ∉ ([] : List (List Nat))
          simp
        | strukt fs =>
          show [] ∉ nonzeroIntPathsL 0 fs
          rw [mem_nonzeroIntPathsL]
          rintro ⟨j, f, q₂, _, h, _⟩
          exact absurd h (by simp)
      constructor
      · intro h; exact absurd h h1
      · rintro ⟨c, hc, _⟩; exact absurd hc (by simp)
    | cons i p =>
      cases u with
      | int n =>
        have h1 : nonzeroIntPaths (V.ptr (some (.int n))) = [] := rfl
        have h2 : readPath (V.ptr (some (.int n))) (i :: p) = none := rfl
        rw [h1, h2]
        simp
      | ptr o =>
        have h1 : nonzeroIntPaths (V.ptr (some (.ptr o))) = [] := by cases o <;> rfl
        have h2 : readPath (V.ptr (some (.ptr o))) (i :: p) = none := by cases o <;> rfl
        rw [h1, h2]
        simp
      | strukt fs =>
        have h1 : nonzeroIntPaths (V.ptr (some (.strukt fs))) =
            nonzeroIntPaths (.strukt fs) := rfl
        have h2 : readPath (V.ptr (some (.strukt fs))) (i :: p) =
            readPath (.strukt fs) (i :: p) := rfl
        rw [h1, h2]
        exact ih (i :: p)
  | hstr fs ih =>
    intro q
    have h0 : nonzeroIntPaths (.strukt fs) = nonzeroIntPathsL 0 fs := rfl
    rw [h0]
    cases q with
    | nil =>
      rw [readPath_nil]
      rw [mem_nonzeroIntPathsL]
      constructor
      · rintro ⟨j, f, q₂, _, h, _⟩; exact absurd h (by simp)
      · rintro ⟨c, hc, _⟩; exact absurd hc (by simp)
    | cons i p =>
      rw [readPath_strukt]
      rw [mem_nonzeroIntPathsL]
      constructor
      · rintro ⟨j, f, q₂, hj, heq, hq₂⟩
        have hj2 : j = i := by
          have := congrArg (fun l => List.headD l 0) heq
          simpa using this.symm
        have hq2 : q₂ = p := by
          have := congrArg List.tail heq
          simpa using this.symm
        subst hj2
        subst hq2
        rw [hj]
        exact (ih f (List.getElem?_mem hj) q₂).mp hq₂
      · intro hu
        cases hfi : fs[i]? with
        | none => rw [hfi] at hu; exact absurd hu (by simp)
        | some f =>
          rw [hfi] at hu
          exact ⟨i, f, p, hfi, by simp, (ih f (List.getElem?_mem hfi) p).mpr hu⟩

/-! ## Resolver facts (claim C3) -/

theorem cutS_found_of_lookup {f : FieldsD} {col : String}
    (h1 : f.byColumnName.lookup col = none)
    (h2 : (f.byColumnName.lookup (cutS col '_').1).isSome) :
    (cutS col '_').2.1.length < col.length := by
  by_cases hf : (cutChars '_' col.data).2.2 = true
  · have hgoal : (cutS col '_').2.1.length = (cutChars '_' col.data).2.1.length := rfl
    have hcol : col.length = col.data.length := rfl
    rw [hgoal, hcol]
    exact cutChars_found_length_lt hf
  · exfalso
    simp only [Bool.not_eq_true] at hf
    have heq : (cutChars '_' col.data).1 = col.data := cutChars_not_found hf
    have hre : (cutS col '_').1 = col := by
      show (⟨(cutChars '_' col.data).1⟩ : String) = col
      rw [heq]
    rw [hre, h1] at h2
    simp at h2

theorem travColF_stable (env : TypeEnv) (fuel : Nat) :
    ∀ (n m : Nat) (f : FieldsD) (col : String) (path : List Nat),
      col.length < n → col.length < m →
      travColF env fuel n f col path = travColF env fuel m f col path := by
  intro n
  induction n using Nat.strong_induction_on with
  | _ n ih =>
    intro m f col path hn hm
    match n, hn with
    | n' + 1, hn =>
    match m, hm with
    | m' + 1, hm =>
    simp only [travColF]
    cases hl : f.byColumnName.lookup col with
    | some field => simp only [hl]
    | none =>
      simp only [hl]
      cases hl2 : f.byColumnName.lookup (cutS col '_').1 with
      | none => simp only [hl2]
      | some field =>
        simp only [hl2]
        cases hf : fieldsOf env fuel field.directType with
        | none => simp only [hf]
        | some sub =>
          simp only [hf]
          have hlt : (cutS col '_').2.1.length < col.length :=
            cutS_found_of_lookup hl (by rw [hl2]; rfl)
          have hstep := ih n' (Nat.lt_succ_self n') m' sub (cutS col '_').2.1
            (path ++ field.index) (by omega) (by omega)
          rw [hstep]

theorem travCol_exact (env : TypeEnv) (fuel : Nat) (f : FieldsD) (col : String)
    (path : List Nat) (fd : FieldD) (h : f.byColumnName.lookup col = some fd) :
    travCol env fuel f col path = [.column (some (fd, path ++ fd.index))] := by
  rw [travCol]
  simp only [travColF, h]

theorem travCol_unknown (env : TypeEnv) (fuel : Nat) (f : FieldsD) (col : String)
    (path : List Nat) (h1 : f.byColumnName.lookup col = none)
    (h2 : f.byColumnName.lookup (cutS col '_').1 = none ∨
      ∃ fd, f.byColumnName.lookup (cutS col '_').1 = some fd ∧
        fieldsOf env fuel fd.directType = none) :
    travCol env fuel f col path = [.column none] := by
  rw [travCol]
  simp only [travColF, h1]
  rcases h2 with h2 | ⟨fd, h2, h3⟩
  · simp only [h2]
  · simp only [h2, h3]

theorem travCol_decompose (env : TypeEnv) (fuel : Nat) (f : FieldsD) (col : String)
    (path : List Nat) (fd : FieldD) (sub : FieldsD)
    (h1 : f.byColumnName.lookup col = none)
    (h2 : f.byColumnName.lookup (cutS col '_').1 = some fd)
    (h3 : fieldsOf env fuel fd.directType = some sub) :
    travCol env fuel f col path =
      travCol env fuel sub (cutS col '_').2.1 (path ++ fd.index)
        ++ [.inter fd (path ++ fd.index)] := by
  rw [travCol]
  simp only [travColF, h1, h2, h3]
  rw [travCol]
  have hlt : (cutS col '_').2.1.length < col.length :=
    cutS_found_of_lookup h1 (by rw [h2]; rfl)
  rw [travColF_stable env fuel col.length ((cutS col '_').2.1.length + 1) sub
    (cutS col '_').2.1 (path ++ fd.index) hlt (Nat.lt_succ_self _)]

/-! ## Claim C3: column resolution algorithm -/

/-- C3: for every column name and descriptor, the resolver first tries an
exact match in `byColumnName` and returns that field's path directly; only
otherwise does it split the name at its first underscore into root and rest,
failing when the root is not a column or the root's direct type has no
struct descriptor, and recursively resolving rest against the root's nested
descriptor with the root's own index sequence prepended to the path. -/
theorem c3_resolver_exact_then_split (env : TypeEnv) (fuel : Nat) (f : FieldsD)
    (col : String) (path : List Nat) :
    (∀ fd, f.byColumnName.lookup col = some fd →
      travCol env fuel f col path = [.column (some (fd, path ++ fd.index))]) ∧
    (f.byColumnName.lookup col = none →
      ((f.byColumnName.lookup (cutS col '_').1 = none ∨
        (∃ fd, f.byColumnName.lookup (cutS col '_').1 = some fd ∧
          fieldsOf env fuel fd.directType = none)) →
        travCol env fuel f col path = [.column none]) ∧
      (∀ fd sub, f.byColumnName.lookup (cutS col '_').1 = some fd →
        fieldsOf env fuel fd.directType = some sub →
        travCol env fuel f col path =
          travCol env fuel sub (cutS col '_').2.1 (path ++ fd.index)
            ++ [.inter fd (path ++ fd.index)])) := by
  refine ⟨fun fd h => travCol_exact env fuel f col path fd h, fun h1 => ⟨?_, ?_⟩⟩
  · intro h2
    exact travCol_unknown env fuel f col path h1 h2
  · intro fd sub h2 h3
    exact travCol_decompose env fuel f col path fd sub h1 h2 h3

theorem c3_resolver_exact_then_split_witness :
    travCol personEnv 10 personFD "id" [] =
      [.column (some (FieldD.mk "id" true [0] .scalarT .scalarT, [0]))] ∧
    travCol personEnv 10 personFD "bogus" [] = [.column none] ∧
    travCol personEnv 10 personFD "child_id" [] =
      travCol personEnv 10 personFD "id" [2] ++
        [.inter (FieldD.mk "child" true [2] (.structT 0) (.ptrT (.structT 0))) [2]] := by
  refine ⟨?_, ?_, ?_⟩
  · exact (c3_resolver_exact_then_split personEnv 10 personFD "id" []).1 _ rfl
  · exact ((c3_resolver_exact_then_split personEnv 10 personFD "bogus" []).2 rfl).1
      (Or.inl rfl)
  · exact ((c3_resolver_exact_then_split personEnv 10 personFD "child_id" []).2 rfl).2
      (FieldD.mk "child" true [2] (.structT 0) (.ptrT (.structT 0))) personFD rfl rfl

/-! ## Claim C4: promotion merging and the underscore prefix -/

/-- C4 counterexample: a *named* (non-anonymous) promoted field without an
explicit tag name (`sqlp:",promote"`) merges its sub-columns with **no**
prefix: the build succeeds, the merged map holds the bare `"X"`, and the
claimed `"Child_X"` is absent. -/
theorem c4_counterexample :
    newFields promoteEnv 10 0 [] =
      .ok (FieldsD.mk [("X", FieldD.mk "X" false [0, 0] .scalarT .scalarT)] 0,
        [1, 0]) ∧
    (promoteEnv.head?.map (fun st => (st.fields.map GoField.anonymous))) =
      some [false] ∧
    (FieldsD.mk [("X", FieldD.mk "X" false [0, 0] .scalarT .scalarT)] 0
      ).byColumnName.lookup "Child_X" = none :=
  ⟨rfl, rfl, rfl⟩

/-- C4 amended: during promotion merging, the nested columns are inserted
under the prefix `column ++ "_"` exactly when the promoted field carries an
explicit valid tag-name override (`tagged`), and with no prefix otherwise —
anonymity is irrelevant; each merged field's declaration index is prepended. -/
theorem c4_promote_prefix_iff_tagged
    (tagged : Bool) (column : String) (i : Nat) (sfName : String) :
    ∀ (embedded m m' : List (String × FieldD)),
      promoteMerge tagged column i sfName m embedded = .ok m' →
      m' = m ++ embedded.map (fun kf =>
        (if tagged then column ++ "_" ++ kf.1 else kf.1,
         { kf.2 with index := i :: kf.2.index })) := by
  intro embedded
  induction embedded with
  | nil =>
    intro m m' h
    simp only [promoteMerge] at h
    cases h
    simp
  | cons kf rest ih =>
    obtain ⟨k, fv⟩ := kf
    intro m m' h
    simp only [promoteMerge] at h
    cases hadd : addCol m (if tagged then column ++ "_" ++ k else k)
        { fv with index := i :: fv.index } with
    | none => rw [hadd] at h; exact absurd h (by simp)
    | some m2 =>
      rw [hadd] at h
      have hm2 : m2 = m ++ [((if tagged then column ++ "_" ++ k else k),
          { fv with index := i :: fv.index })] := by
        by_cases hc : (m.lookup (if tagged then column ++ "_" ++ k else k)).isSome
        · simp [addCol, hc] at hadd
        · simp [addCol, hc] at hadd
          exact hadd.symm
      rw [ih m2 m' h, hm2]
      simp

theorem c4_promote_prefix_iff_tagged_witness :
    promoteMerge false "Child" 0 "Child" []
        [("X", FieldD.mk "X" false [0] .scalarT .scalarT)] =
      .ok [("X", FieldD.mk "X" false [0, 0] .scalarT .scalarT)] ∧
    promoteMerge true "info" 1 "Info" []
        [("X", FieldD.mk "X" false [0] .scalarT .scalarT)] =
      .ok [("info_X", FieldD.mk "X" false [1, 0] .scalarT .scalarT)] ∧
    [("X", FieldD.mk "X" false [0, 0] .scalarT .scalarT)] =
      [] ++ [("X", FieldD.mk "X" false [0] .scalarT .scalarT)].map (fun kf =>
        ((if false then "Child" ++ "_" ++ kf.1 else kf.1),
         { kf.2 with index := 0 :: kf.2.index })) := by
  refine ⟨rfl, rfl, ?_⟩
  exact c4_promote_prefix_iff_tagged false "Child" 0 "Child"
    [("X", FieldD.mk "X" false [0] .scalarT .scalarT)] [] _ rfl

/-! ## Claim C5: duplicate column detection -/

/-- C5 counterexample: two promoted fields of the same struct type resolve
to the same effective column name `"X"`, yet the build *succeeds* — the
second field's type is already in the visited set, so its merge (and hence
the collision check) is skipped wholesale and only the first field's
columns are kept. -/
theorem c5_counterexample :
    newFields dupPromoteEnv 10 0 [] =
      .ok (FieldsD.mk [("X", FieldD.mk "X" false [0, 0] .scalarT .scalarT)] 0,
        [1, 0]) := rfl

/-! ## Builder equations and column uniqueness (claim C5) -/

theorem buildGo_loop_skip (env : TypeEnv) (fuel : Nat) (i : Nat) (sf : GoField)
    (rest : List (Nat × GoField)) (m : List (String × FieldD)) (vis : List Nat)
    (h : (sf.anonymous ∧ ¬sf.exported ∧ ¬(derefT sf.typ).isStruct) ∨
      (¬sf.anonymous ∧ ¬sf.exported) ∨ sf.tag = "-") :
    buildGo env (fuel + 1) (.loop ((i, sf) :: rest) m vis) =
      buildGo env fuel (.loop rest m vis) := by
  rw [buildGo]
  rcases h with h | h | h
  · rw [if_pos h]
  · by_cases h1 : sf.anonymous ∧ ¬sf.exported ∧ ¬(derefT sf.typ).isStruct
    · rw [if_pos h1]
    · rw [if_neg h1, if_pos h]
  · by_cases h1 : sf.anonymous ∧ ¬sf.exported ∧ ¬(derefT sf.typ).isStruct
    · rw [if_pos h1]
    · rw [if_neg h1]
      by_cases h2 : ¬sf.anonymous ∧ ¬sf.exported
      · rw [if_pos h2]
      · rw [if_neg h2, if_pos h]

theorem buildGo_loop_cons (env : TypeEnv) (fuel : Nat) (i : Nat) (sf : GoField)
    (rest : List (Nat × GoField)) (m : List (String × FieldD)) (vis : List Nat)
    (h1 : ¬(sf.anonymous ∧ ¬sf.exported ∧ ¬(derefT sf.typ).isStruct))
    (h2 : ¬(¬sf.anonymous ∧ ¬sf.exported))
    (h3 : ¬sf.tag = "-") :
    buildGo env (fuel + 1) (.loop ((i, sf) :: rest) m vis) =
      match buildStepRes env fuel i sf m vis with
      | .error e => .error e
      | .ok (m₁, vis₁) =>
        if fieldPromote sf then buildGo env fuel (.loop rest m₁ vis₁)
        else
          match addCol m₁ (fieldColumn sf) (fieldDesc i sf) with
          | none => .error (.duplicate (fieldColumn sf))
          | some m₂ => buildGo env fuel (.loop rest m₂ vis₁) := by
  rw [buildGo, if_neg h1, if_neg h2, if_neg h3]
  rfl

theorem lookup_none_iff (m : List (String × FieldD)) (col : String) :
    m.lookup col = none ↔ col ∉ m.map Prod.fst := by
  induction m with
  | nil => simp
  | cons kv m ih =>
    obtain ⟨k, v⟩ := kv
    by_cases hk : col = k
    · subst hk
      simp [List.lookup]
    · have hbe : (col == k) = false := beq_eq_false_iff_ne.mpr hk
      simp [List.lookup, hbe, ih, hk]

theorem addCol_ok {m : List (String × FieldD)} {col : String} {fd : FieldD}
    {m' : List (String × FieldD)} (h : addCol m col fd = some m') :
    m' = m ++ [(col, fd)] ∧ col ∉ m.map Prod.fst := by
  by_cases hc : (m.lookup col).isSome
  · simp [addCol, hc] at h
  · refine ⟨?_, (lookup_none_iff m col).mp (by
      cases hl : m.lookup col with
      | none => rfl
      | some v => rw [hl] at hc; simp at hc)⟩
    simp [addCol, hc] at h
    exact h.symm

theorem addCol_keys_nodup {m : List (String × FieldD)} {col : String} {fd : FieldD}
    {m' : List (String × FieldD)} (h : addCol m col fd = some m')
    (hm : (m.map Prod.fst).Nodup) : (m'.map Prod.fst).Nodup := by
  obtain ⟨rfl, hmem⟩ := addCol_ok h
  simp only [List.map_append, List.map_cons, List.map_nil]
  rw [List.nodup_append]
  refine ⟨hm, List.nodup_singleton col, ?_⟩
  intro a ha hb
  simp only [List.mem_singleton] at hb
  subst hb
  exact hmem ha

theorem promoteMerge_keys_nodup (tagged : Bool) (column : String) (i : Nat)
    (sfName : String) :
    ∀ (embedded m m' : List (String × FieldD)),
      promoteMerge tagged column i sfName m embedded = .ok m' →
      (m.map Prod.fst).Nodup → (m'.map Prod.fst).Nodup := by
  intro embedded
  induction embedded with
  | nil =>
    intro m m' h hm
    simp only [promoteMerge] at h
    cases h
    exact hm
  | cons kf rest ih =>
    obtain ⟨k, fv⟩ := kf
    intro m m' h hm
    simp only [promoteMerge] at h
    cases hadd : addCol m (if tagged then column ++ "_" ++ k else k)
        { fv with index := i :: fv.index } with
    | none => simp only [hadd] at h; exact absurd h (by simp)
    | some m2 =>
      simp only [hadd] at h
      exact ih m2 m' h (addCol_keys_nodup hadd hm)

theorem buildStepRes_keys_nodup {env : TypeEnv} {fuel : Nat} {i : Nat}
    {sf : GoField} {m : List (String × FieldD)} {vis : List Nat}
    {m₁ : List (String × FieldD)} {vis₁ : List Nat}
    (h : buildStepRes env fuel i sf m vis = .ok (m₁, vis₁))
    (hm : (m.map Prod.fst).Nodup) : (m₁.map Prod.fst).Nodup := by
  unfold buildStepRes at h
  cases hsid : structId? (derefT sf.typ) with
  | none => simp only [hsid] at h; cases h; exact hm
  | some fid =>
    simp only [hsid] at h
    by_cases hv : fid ∈ vis
    · rw [if_pos hv] at h; cases h; exact hm
    · rw [if_neg hv] at h
      cases hrec : buildGo env fuel (.typ fid vis) with
      | error e => simp only [hrec] at h; exact absurd h (by simp)
      | ok pr =>
        obtain ⟨embedded, vis'⟩ := pr
        simp only [hrec] at h
        by_cases hp : fieldPromote sf = true
        · rw [if_pos hp] at h
          cases hpm : promoteMerge (fieldTagged sf) (fieldColumn sf) i
              sf.name m embedded with
          | error e => simp only [hpm] at h; exact absurd h (by simp)
          | ok m2 =>
            simp only [hpm] at h
            cases h
            exact promoteMerge_keys_nodup _ _ _ _ embedded m m₁ hpm hm
        · rw [if_neg hp] at h; cases h; exact hm

/-- C5 amended: whenever the descriptor builder succeeds, the effective
column names of the produced map are pairwise distinct: every collision
among columns actually inserted raises a `BuildErr` (naming the bare column
for direct fields and the *unprefixed* embedded column for promoted merges,
as the source's messages do) — but a promoted field whose struct type is
already in the visited set is skipped wholesale, so its would-be collisions
escape detection (see the counterexample). -/
theorem c5_built_columns_unique (env : TypeEnv) :
    ∀ (fuel : Nat) (call : BuildCall) (m : List (String × FieldD)) (vis : List Nat),
      buildGo env fuel call = .ok (m, vis) →
      (∀ rest m₀ vis₀, call = .loop rest m₀ vis₀ → (m₀.map Prod.fst).Nodup) →
      (m.map Prod.fst).Nodup := by
  intro fuel
  induction fuel with
  | zero =>
    intro call m vis h _
    simp [buildGo] at h
  | succ fuel ih =>
    intro call m vis h hpre
    cases call with
    | typ tid vis₀ =>
      rw [buildGo] at h
      exact ih _ m vis h (by rintro rest m₀ v₀ heq; cases heq; simp)
    | loop rest m₀ vis₀ =>
      have hm₀ := hpre rest m₀ vis₀ rfl
      cases rest with
      | nil =>
        rw [buildGo] at h
        cases h
        exact hm₀
      | cons isf rest2 =>
        obtain ⟨i, sf⟩ := isf
        by_cases hs1 : sf.anonymous ∧ ¬sf.exported ∧ ¬(derefT sf.typ).isStruct
        · rw [buildGo_loop_skip env fuel i sf rest2 m₀ vis₀ (Or.inl hs1)] at h
          exact ih _ m vis h (by rintro r m₁ v₁ heq; cases heq; exact hm₀)
        · by_cases hs2 : ¬sf.anonymous ∧ ¬sf.exported
          · rw [buildGo_loop_skip env fuel i sf rest2 m₀ vis₀ (Or.inr (Or.inl hs2))] at h
            exact ih _ m vis h (by rintro r m₁ v₁ heq; cases heq; exact hm₀)
          · by_cases hs3 : sf.tag = "-"
            · rw [buildGo_loop_skip env fuel i sf rest2 m₀ vis₀ (Or.inr (Or.inr hs3))] at h
              exact ih _ m vis h (by rintro r m₁ v₁ heq; cases heq; exact hm₀)
            · rw [buildGo_loop_cons env fuel i sf rest2 m₀ vis₀ hs1 hs2 hs3] at h
              cases hstep : buildStepRes env fuel i sf m₀ vis₀ with
              | error e => simp only [hstep] at h; exact absurd h (by simp)
              | ok pr =>
                obtain ⟨m₁, vis₁⟩ := pr
                simp only [hstep] at h
                have hm₁ : (m₁.map Prod.fst).Nodup := buildStepRes_keys_nodup hstep hm₀
                by_cases hp : fieldPromote sf = true
                · rw [if_pos hp] at h
                  exact ih _ m vis h (by rintro r m₂ v₂ heq; cases heq; exact hm₁)
                · rw [if_neg hp] at h
                  cases hadd : addCol m₁ (fieldColumn sf) (fieldDesc i sf) with
                  | none => simp only [hadd] at h; exact absurd h (by simp)
                  | some m₂ =>
                    simp only [hadd] at h
                    exact ih _ m vis h (by
                      rintro r m₃ v₃ heq
                      cases heq
                      exact addCol_keys_nodup hadd hm₁)

theorem c5_built_columns_unique_witness :
    ((FieldsD.mk
      [ ("id", FieldD.mk "id" true [0] .scalarT .scalarT),
        ("name", FieldD.mk "name" true [1] .scalarT .scalarT),
        ("child", FieldD.mk "child" true [2] (.structT 0) (.ptrT (.structT 0))) ] 0
      ).byColumnName.map Prod.fst).Nodup :=
  c5_built_columns_unique personEnv 10 (.typ 0 []) personFD.byColumnName [0] rfl
    (by rintro rest m₀ v₀ heq; cases heq)

/-! ## Unknown-column behaviour (claim C8) and scan non-atomicity (claim C9) -/

/-- C8 counterexample: scanning `["id", "child_child_bogus"]` against the
canonical `Person` descriptor.  The unresolvable column is bound to a
discard target (lenient, as the default allegedly is), yet the scan of the
row as a whole FAILS: decomposing the unknown column registered the
collapse paths `[2,2]` and `[2]`, the discard targeter never allocates the
intermediate `Child` pointers, and the collapse pass hits a nil pointer on
path `[2,2]` — the source's "failed to nil out field on path" error.  So
under the engine's one (lenient) behaviour it is not true that "all other
columns scan normally", and no strict/lenient knob exists anywhere on this
path. -/
theorem c8_counterexample :
    fieldsRowsScan (newFieldsRows personEnv 10 personFD ["id", "child_child_bogus"])
        (.ok [5, 42]) freshPerson
      = (.strukt [.int 5, .int 0, .ptr none], some (.nilOutInvalid [2, 2])) := rfl

/-- C8 amended: there is no configurable unknown-column policy.  The current
scan path (`NewFieldsRows`) is unconditionally lenient at plan-compilation
time: a column that resolves to nothing is always bound to a discard
targeter and plan compilation never fails; the legacy path
(`StructFields.fieldTargeter` in `sqlp/internal/reflectp`) is
unconditionally strict: the same unresolvable column always yields an
"unknown column" error before any row is read.  Which behaviour applies is
fixed by the code path, not by any option.  (Moreover the lenient path does
not guarantee that the remaining columns scan normally — see the
counterexample.) -/
theorem c8_unknown_column_policy (env : TypeEnv) (fuel : Nat) (f : FieldsD)
    (cols : List String) (i : Nat) (c : String)
    (hc : cols[i]? = some c)
    (h1 : f.byColumnName.lookup c = none)
    (h2 : f.byColumnName.lookup (cutS c '_').1 = none) :
    (newFieldsRows env fuel f cols).targeters[i]? = some .discard
    ∧ fieldTargeterM env fuel f c = .error ("unknown column " ++ c) := by
  have hres : colResOf (travCol env fuel f c []) = none := by
    rw [travCol, travColF]
    simp only [h1, h2]
    rfl
  constructor
  · simp only [newFieldsRows]
    rw [List.getElem?_map, hc, Option.map_some']
    simp only [hres]
    rfl
  · rw [fieldTargeterM, fieldTargeterF]
    simp only [h1, h2]

theorem c8_unknown_column_policy_witness :
    (newFieldsRows personEnv 10 personFD ["id", "bogus"]).targeters[1]? = some .discard
    ∧ fieldTargeterM personEnv 10 personFD "bogus" = .error ("unknown column " ++ "bogus") :=
  c8_unknown_column_policy personEnv 10 personFD ["id", "bogus"] 1 "bogus" rfl rfl rfl

/-- C9: scanning is not atomic on error.  On the canonical `Person` plan,
when the row-scan primitive itself fails, the destination has nevertheless
been mutated: every targeter ran first, allocating the nil intermediate
`Child` pointers (two levels deep), and nothing rolls those allocations
back — the returned destination differs from the fresh instance passed
in. -/
theorem c9_scan_not_atomic :
    fieldsRowsScan personPlan (.error ()) freshPerson
      = (.strukt [.int 0, .int 0,
          .ptr (some (.strukt [.int 0, .int 0,
            .ptr (some (.strukt [.int 0, .int 0, .ptr none]))]))],
         some .scanFailed)
    ∧ (fieldsRowsScan personPlan (.error ()) freshPerson).1 ≠ freshPerson := by
  refine ⟨rfl, ?_⟩
  intro h
  rw [show (fieldsRowsScan personPlan (.error ()) freshPerson).1
      = .strukt [.int 0, .int 0,
          .ptr (some (.strukt [.int 0, .int 0,
            .ptr (some (.strukt [.int 0, .int 0, .ptr none]))]))] from rfl] at h
  unfold freshPerson at h
  injection h with hl
  injection hl with h1 hl
  injection hl with h2 hl
  injection hl with h3 hl
  injection h3 with h4
  exact Option.noConfusion h4

/-! ## Collapse-set shape (claim C2) -/

theorem zeroNilInsert_nodup (acc : List (List Nat)) (p : List Nat)
    (h : acc.Nodup) : (zeroNilInsert acc p).Nodup := by
  by_cases hp : p ∈ acc
  · simpa [zeroNilInsert, hp] using h
  · simp only [zeroNilInsert, if_neg hp]
    exact List.Nodup.append h (List.nodup_singleton p)
      (fun a ha hb => hp (by simp only [List.mem_singleton] at hb; exact hb ▸ ha))

theorem zeroNilsOfEvents_nodup (evs : List TravEv) : ∀ acc : List (List Nat),
    acc.Nodup → (zeroNilsOfEvents evs acc).Nodup := by
  induction evs with
  | nil => intro acc h; exact h
  | cons e rest ih =>
    intro acc h
    cases e with
    | column r => exact ih acc h
    | inter fd p =>
      by_cases hp : fd.declType.isPtr = true
      · simpa [zeroNilsOfEvents, hp] using ih _ (zeroNilInsert_nodup acc p h)
      · simpa [zeroNilsOfEvents, hp] using ih acc h

theorem insertByLen_perm (p : List Nat) : ∀ l : List (List Nat),
    List.Perm (insertByLen p l) (p :: l) := by
  intro l
  induction l with
  | nil => exact List.Perm.refl _
  | cons q rest ih =>
    by_cases h : q.length < p.length
    · simp [insertByLen, h]
    · simp only [insertByLen, if_neg h]
      exact (ih.cons q).trans (List.Perm.swap p q rest)

theorem sortByLenDesc_perm : ∀ l : List (List Nat), List.Perm (sortByLenDesc l) l := by
  intro l
  induction l with
  | nil => exact List.Perm.refl _
  | cons p rest ih =>
    simp only [sortByLenDesc]
    exact (insertByLen_perm p _).trans (ih.cons p)

theorem insertByLen_pairwise (p : List Nat) : ∀ l : List (List Nat),
    l.Pairwise (fun a b => b.length ≤ a.length) →
    (insertByLen p l).Pairwise (fun a b => b.length ≤ a.length) := by
  intro l
  induction l with
  | nil => intro _; simp [insertByLen]
  | cons q rest ih =>
    intro h
    rw [List.pairwise_cons] at h
    obtain ⟨hq, hrest⟩ := h
    by_cases hlt : q.length < p.length
    · simp only [insertByLen, if_pos hlt]
      rw [List.pairwise_cons]
      refine ⟨?_, ?_⟩
      · intro b hb
        rcases List.mem_cons.mp hb with rfl | hb
        · omega
        · have := hq b hb; omega
      · rw [List.pairwise_cons]; exact ⟨hq, hrest⟩
    · simp only [insertByLen, if_neg hlt]
      rw [List.pairwise_cons]
      refine ⟨?_, ih hrest⟩
      intro b hb
      have hmem := (insertByLen_perm p rest).mem_iff.mp hb
      rcases List.mem_cons.mp hmem with rfl | hb2
      · omega
      · exact hq b hb2

theorem sortByLenDesc_pairwise : ∀ l : List (List Nat),
    (sortByLenDesc l).Pairwise (fun a b => b.length ≤ a.length) := by
  intro l
  induction l with
  | nil => simp [sortByLenDesc]
  | cons p rest ih =>
    simp only [sortByLenDesc]
    exact insertByLen_pairwise p _ ih

theorem pairwise_index_lt {α : Type} {R : α → α → Prop} :
    ∀ (l : List α), l.Pairwise R →
      ∀ (i j : Nat) (p q : α), l[i]? = some p → l[j]? = some q → i < j → R p q := by
  intro l
  induction l with
  | nil => intro _ i j p q hi; simp at hi
  | cons a rest ih =>
    intro h i j p q hi hj hij
    rw [List.pairwise_cons] at h
    cases i with
    | zero =>
      simp only [List.getElem?_cons_zero] at hi
      cases hi
      cases j with
      | zero => omega
      | succ j2 =>
        simp only [List.getElem?_cons_succ] at hj
        exact h.1 q (List.getElem?_mem hj)
    | succ i2 =>
      cases j with
      | zero => omega
      | succ j2 =>
        simp only [List.getElem?_cons_succ] at hi hj
        exact ih h.2 i2 j2 p q hi hj (by omega)

/-- C2: the compiled collapse set is deduplicated (each touched
nested-relation path appears at most once) and sorted by path depth,
non-increasing; consequently whenever one collapse path is a strict
ancestor (proper prefix) of another, the deeper path sits strictly earlier
in the list, so the per-row collapse pass tests and possibly resets it
before the shallower one. -/
theorem c2_collapse_dedup_deepest_first (env : TypeEnv) (fuel : Nat)
    (f : FieldsD) (cols : List String) :
    (newFieldsRows env fuel f cols).zeroNils.Nodup
    ∧ (newFieldsRows env fuel f cols).zeroNils.Pairwise
        (fun a b => b.length ≤ a.length)
    ∧ ∀ (i j : Nat) (p q : List Nat),
        (newFieldsRows env fuel f cols).zeroNils[i]? = some p →
        (newFieldsRows env fuel f cols).zeroNils[j]? = some q →
        (∃ r, r ≠ [] ∧ q = p ++ r) → j < i := by
  have hnd : (zeroNilsOfEvents (traverse env fuel f cols) []).Nodup :=
    zeroNilsOfEvents_nodup _ [] List.nodup_nil
  have hperm := sortByLenDesc_perm (zeroNilsOfEvents (traverse env fuel f cols) [])
  have hsorted := sortByLenDesc_pairwise (zeroNilsOfEvents (traverse env fuel f cols) [])
  refine ⟨hperm.nodup_iff.mpr hnd, hsorted, ?_⟩
  intro i j p q hi hj hpre
  obtain ⟨r, hr, hq⟩ := hpre
  have hrlen : 0 < r.length := List.length_pos.mpr hr
  rcases Nat.lt_trichotomy i j with hlt | heq | hgt
  · have hrel := pairwise_index_lt _ hsorted i j p q hi hj hlt
    rw [hq] at hrel
    simp only [List.length_append] at hrel
    omega
  · subst heq
    rw [hi] at hj
    injection hj with hj
    rw [hj] at hq
    have : q.length = q.length + r.length := by
      conv_lhs => rw [hq]
      simp [List.length_append]
    omega
  · exact hgt

theorem c2_collapse_dedup_deepest_first_witness :
    personPlan.zeroNils = [[2, 2], [2]] ∧ (0 : Nat) < 1 :=
  ⟨rfl, (c2_collapse_dedup_deepest_first personEnv 10 personFD personCols).2.2
    1 0 [2] [2, 2] rfl rfl ⟨[2], by decide, rfl⟩⟩

/-! ## Collapse-set provenance and frame (claim C10) -/

theorem mem_zeroNilInsert {acc : List (List Nat)} {p x : List Nat} :
    x ∈ zeroNilInsert acc p ↔ x ∈ acc ∨ x = p := by
  unfold zeroNilInsert
  by_cases hp : p ∈ acc
  · simp only [if_pos hp]
    exact ⟨Or.inl, fun h => h.elim id (fun he => he ▸ hp)⟩
  · simp [if_neg hp]

theorem zeroNilsOfEvents_mem (evs : List TravEv) :
    ∀ (acc : List (List Nat)) (x : List Nat),
      x ∈ zeroNilsOfEvents evs acc →
      x ∈ acc ∨ ∃ fd, TravEv.inter fd x ∈ evs ∧ fd.declType.isPtr = true := by
  induction evs with
  | nil => intro acc x h; exact Or.inl h
  | cons e rest ih =>
    intro acc x h
    cases e with
    | column r =>
      simp only [zeroNilsOfEvents] at h
      rcases ih acc x h with h | ⟨fd, hm, hp⟩
      · exact Or.inl h
      · exact Or.inr ⟨fd, List.mem_cons_of_mem _ hm, hp⟩
    | inter fd p =>
      by_cases hp : fd.declType.isPtr = true
      · simp only [zeroNilsOfEvents, if_pos hp] at h
        rcases ih _ x h with h | ⟨fd2, hm, hp2⟩
        · rcases mem_zeroNilInsert.mp h with h | rfl
          · exact Or.inl h
          · exact Or.inr ⟨fd, List.mem_cons_self _ _, hp⟩
        · exact Or.inr ⟨fd2, List.mem_cons_of_mem _ hm, hp2⟩
      · simp only [zeroNilsOfEvents, if_neg hp] at h
        rcases ih acc x h with h | ⟨fd2, hm, hp2⟩
        · exact Or.inl h
        · exact Or.inr ⟨fd2, List.mem_cons_of_mem _ hm, hp2⟩

theorem collapsePass_frame : ∀ (L : List (List Nat)) (v : V) (q : List Nat),
    (∀ p ∈ L, ¬ p <+: q ∧ ¬ q <+: p) →
    readPath (collapsePass L v).1 q = readPath v q := by
  intro L
  induction L with
  | nil => intro v q _; rfl
  | cons p rest ih =>
    intro v q h
    have hp := h p (List.mem_cons_self _ _)
    simp only [collapsePass]
    cases hcs : collapseStep v p with
    | error e => rfl
    | ok v2 =>
      have hv2 : readPath v2 q = readPath v q := by
        unfold collapseStep at hcs
        cases hrp : readPath v p with
        | none => simp [hrp] at hcs
        | some w =>
          cases w with
          | int n => simp [hrp] at hcs
          | strukt fs => simp [hrp] at hcs
          | ptr o =>
            cases o with
            | none => simp only [hrp] at hcs; cases hcs; rfl
            | some u =>
              simp only [hrp] at hcs
              by_cases hz : isZeroV u = true
              · rw [if_pos hz] at hcs
                cases hcs
                exact updatePath_frame p v q _ hp.1 hp.2
              · rw [if_neg hz] at hcs; cases hcs; rfl
      rw [ih v2 q (fun r hr => h r (List.mem_cons_of_mem _ hr)), hv2]

/-- C10: the collapse pass only ever touches pointer-declared fields, and is
a no-op everywhere else.  First, every path in the compiled collapse set
stems from an intermediate traversal event whose field's *declared* type is
a pointer — so a nested structural field declared by value (including a
promoted embed) is never added to the set and hence never reset to absent,
however default its scanned columns are.  Second, the frame property: any
field whose path is incomparable to every collapse-set path (neither lies
on a collapse path nor contains one) reads identically before and after the
pass, whether the pass succeeds or aborts. -/
theorem c10_collapse_only_pointer_paths (env : TypeEnv) (fuel : Nat)
    (f : FieldsD) (cols : List String) (v : V) :
    (∀ p ∈ (newFieldsRows env fuel f cols).zeroNils,
       ∃ fd, TravEv.inter fd p ∈ traverse env fuel f cols ∧ fd.declType.isPtr = true)
    ∧ ∀ q : List Nat,
        (∀ p ∈ (newFieldsRows env fuel f cols).zeroNils, ¬ p <+: q ∧ ¬ q <+: p) →
        readPath (collapsePass (newFieldsRows env fuel f cols).zeroNils v).1 q
          = readPath v q := by
  constructor
  · intro p hp
    have hp2 : p ∈ zeroNilsOfEvents (traverse env fuel f cols) [] :=
      (sortByLenDesc_perm _).mem_iff.mp hp
    rcases zeroNilsOfEvents_mem _ [] p hp2 with h | h
    · simp at h
    · exact h
  · intro q hq
    exact collapsePass_frame _ v q hq

theorem c10_collapse_only_pointer_paths_witness :
    readPath (collapsePass personPlan.zeroNils (V.strukt [.int 7, .int 0, .ptr none])).1 [0]
      = readPath (V.strukt [.int 7, .int 0, .ptr none]) [0] :=
  (c10_collapse_only_pointer_paths personEnv 10 personFD personCols
      (V.strukt [.int 7, .int 0, .ptr none])).2 [0] (by
    intro p hp
    rw [show (newFieldsRows personEnv 10 personFD personCols).zeroNils
        = [[2, 2], [2]] from rfl] at hp
    rcases List.mem_cons.mp hp with rfl | hp
    · exact ⟨by decide, by decide⟩
    · rcases List.mem_cons.mp hp with rfl | hp
      · exact ⟨by decide, by decide⟩
      · simp at hp)

theorem readPath_strukt_single (fs : List V) (i : Nat) :
    readPath (.strukt fs) [i] = fs[i]? := by
  rw [readPath_strukt]
  cases fs[i]? with
  | none => rfl
  | some f => exact readPath_nil f

theorem readPath_ptrSomeStrukt_single (fs : List V) (i : Nat) :
    readPath (.ptr (some (.strukt fs))) [i] = fs[i]? := by
  rw [readPath_ptrSome]
  exact readPath_strukt_single fs i

theorem touchSteps_safe : ∀ (steps : List (Nat × Option V)) (v : V) (leaf : Nat),
    fitsSteps v steps leaf = true →
    (∀ k, k ≤ steps.length →
       ∃ w, readPath (touchSteps v steps) ((steps.map Prod.fst).take k) = some w
         ∧ presentV w = true)
    ∧ ∃ w, readPath (touchSteps v steps) (steps.map Prod.fst ++ [leaf]) = some w := by
  intro steps
  induction steps with
  | nil =>
    intro v leaf hfit
    constructor
    · intro k hk
      have hk0 : k = 0 := Nat.le_zero.mp hk
      subst hk0
      refine ⟨v, readPath_nil v, ?_⟩
      cases v with
      | int n => simp [fitsSteps] at hfit
      | strukt fs => rfl
      | ptr o =>
        cases o with
        | none => simp [fitsSteps] at hfit
        | some u => rfl
    · cases v with
      | int n => simp [fitsSteps] at hfit
      | strukt fs =>
        simp only [fitsSteps, decide_eq_true_eq] at hfit
        exact ⟨fs[leaf], by
          rw [show touchSteps (V.strukt fs) [] = V.strukt fs from rfl,
            show (([] : List (Nat × Option V)).map Prod.fst) ++ [leaf] = [leaf] from rfl,
            readPath_strukt_single]
          exact List.getElem?_eq_getElem hfit⟩
      | ptr o =>
        cases o with
        | none => simp [fitsSteps] at hfit
        | some u =>
          cases u with
          | int n => simp [fitsSteps] at hfit
          | ptr o2 => simp [fitsSteps] at hfit
          | strukt fs =>
            simp only [fitsSteps, decide_eq_true_eq] at hfit
            exact ⟨fs[leaf], by
              rw [show touchSteps (V.ptr (some (V.strukt fs))) []
                  = V.ptr (some (V.strukt fs)) from rfl,
                show (([] : List (Nat × Option V)).map Prod.fst) ++ [leaf] = [leaf] from rfl,
                readPath_ptrSomeStrukt_single]
              exact List.getElem?_eq_getElem hfit⟩
  | cons step rest ih =>
    obtain ⟨i, az⟩ := step
    intro v leaf hfit
    cases v with
    | int n => simp [fitsSteps] at hfit
    | ptr o =>
      cases o with
      | none => simp [fitsSteps] at hfit
      | some u =>
        cases u with
        | int n => simp [fitsSteps] at hfit
        | ptr o2 => simp [fitsSteps] at hfit
        | strukt fs =>
          simp only [fitsSteps] at hfit
          cases hfsi : fs[i]? with
          | none => simp [hfsi] at hfit
          | some fv =>
            simp only [hfsi] at hfit
            have hA : readPath (V.ptr (some (V.strukt fs))) [i] = some fv := by
              rw [readPath_ptrSomeStrukt_single, hfsi]
            have hD : ∀ (g : V → V) (q : List Nat),
                readPath (updatePath (V.ptr (some (V.strukt fs))) [i] g) (i :: q)
                  = readPath (g fv) q := by
              intro g q
              have h1 := readPath_updatePath_self [i] _ fv g hA
              rw [show (i :: q) = [i] ++ q from rfl, readPath_append, h1]
              rfl
            have hih := ih (allocIfNil az fv) leaf hfit
            constructor
            · intro k hk
              cases k with
              | zero =>
                refine ⟨touchSteps (V.ptr (some (V.strukt fs))) ((i, az) :: rest),
                  readPath_nil _, ?_⟩
                rw [show touchSteps (V.ptr (some (V.strukt fs))) ((i, az) :: rest)
                    = updatePath (V.ptr (some (V.strukt fs))) [i]
                        (fun fv2 => touchSteps (allocIfNil az fv2) rest) from rfl,
                  updatePath_ptrSome]
                rfl
              | succ k2 =>
                have hk2 : k2 ≤ rest.length := by
                  simp only [List.length_cons] at hk; omega
                obtain ⟨w, hw, hwp⟩ := hih.1 k2 hk2
                exact ⟨w, by
                  rw [show (((i, az) :: rest).map Prod.fst).take (k2 + 1)
                      = i :: ((rest.map Prod.fst).take k2) from rfl]
                  rw [show touchSteps (V.ptr (some (V.strukt fs))) ((i, az) :: rest)
                      = updatePath (V.ptr (some (V.strukt fs))) [i]
                          (fun fv2 => touchSteps (allocIfNil az fv2) rest) from rfl, hD]
                  exact hw, hwp⟩
            · obtain ⟨w, hw⟩ := hih.2
              exact ⟨w, by
                rw [show ((i, az) :: rest).map Prod.fst ++ [leaf]
                    = i :: (rest.map Prod.fst ++ [leaf]) from rfl]
                rw [show touchSteps (V.ptr (some (V.strukt fs))) ((i, az) :: rest)
                    = updatePath (V.ptr (some (V.strukt fs))) [i]
                        (fun fv2 => touchSteps (allocIfNil az fv2) rest) from rfl, hD]
                exact hw⟩
    | strukt fs =>
      simp only [fitsSteps] at hfit
      cases hfsi : fs[i]? with
      | none => simp [hfsi] at hfit
      | some fv =>
        simp only [hfsi] at hfit
        have hA : readPath (V.strukt fs) [i] = some fv := by
          rw [readPath_strukt_single, hfsi]
        have hD : ∀ (g : V → V) (q : List Nat),
            readPath (updatePath (V.strukt fs) [i] g) (i :: q) = readPath (g fv) q := by
          intro g q
          have h1 := readPath_updatePath_self [i] _ fv g hA
          rw [show (i :: q) = [i] ++ q from rfl, readPath_append, h1]
          rfl
        have hih := ih (allocIfNil az fv) leaf hfit
        constructor
        · intro k hk
          cases k with
          | zero =>
            refine ⟨touchSteps (V.strukt fs) ((i, az) :: rest), readPath_nil _, ?_⟩
            rw [show touchSteps (V.strukt fs) ((i, az) :: rest)
                = updatePath (V.strukt fs) [i]
                    (fun fv2 => touchSteps (allocIfNil az fv2) rest) from rfl,
              updatePath_strukt]
            rfl
          | succ k2 =>
            have hk2 : k2 ≤ rest.length := by
              simp only [List.length_cons] at hk; omega
            obtain ⟨w, hw, hwp⟩ := hih.1 k2 hk2
            exact ⟨w, by
              rw [show (((i, az) :: rest).map Prod.fst).take (k2 + 1)
                  = i :: ((rest.map Prod.fst).take k2) from rfl]
              rw [show touchSteps (V.strukt fs) ((i, az) :: rest)
                  = updatePath (V.strukt fs) [i]
                      (fun fv2 => touchSteps (allocIfNil az fv2) rest) from rfl, hD]
              exact hw, hwp⟩
        · obtain ⟨w, hw⟩ := hih.2
          exact ⟨w, by
            rw [show ((i, az) :: rest).map Prod.fst ++ [leaf]
                = i :: (rest.map Prod.fst ++ [leaf]) from rfl]
            rw [show touchSteps (V.strukt fs) ((i, az) :: rest)
                = updatePath (V.strukt fs) [i]
                    (fun fv2 => touchSteps (allocIfNil az fv2) rest) from rfl, hD]
            exact hw⟩

/-- C7: a deep targeter compiled into a scan plan (the targeter of every
column whose resolved path is longer than one step) is safe on any
shape-compatible live instance: invoking it allocates a zero-valued
instance into every intermediate nil pointer container before descending,
so afterwards every proper prefix of its path reads to a present (non-nil)
container, and the final leaf field is readable/addressable — the row-scan
writes through the returned address cannot dereference nil. -/
theorem c7_deep_targeter_touch_safety (env : TypeEnv) (fuel : Nat)
    (f : FieldsD) (cols : List String) (k : Nat)
    (steps : List (Nat × Option V)) (leaf : Nat) (v : V)
    (hk : (newFieldsRows env fuel f cols).targeters[k]? = some (.deep steps leaf))
    (hfit : fitsSteps v steps leaf = true) :
    (∀ j, j ≤ steps.length →
       ∃ w, readPath (runTargeterTouch (.deep steps leaf) v)
           ((steps.map Prod.fst).take j) = some w ∧ presentV w = true)
    ∧ ∃ w, readPath (runTargeterTouch (.deep steps leaf) v)
        (steps.map Prod.fst ++ [leaf]) = some w :=
  touchSteps_safe steps v leaf hfit

theorem c7_deep_targeter_touch_safety_witness :
    ∃ w, readPath (runTargeterTouch (.deep [(2, some freshPerson)] 0) freshPerson)
        ([(2, some freshPerson)].map Prod.fst ++ [0]) = some w :=
  (c7_deep_targeter_touch_safety personEnv 10 personFD personCols 2
      [(2, some freshPerson)] 0 freshPerson rfl rfl).2

theorem wfField_lt {env : TypeEnv} {sf : GoField} {fid : Nat}
    (hsf : wfField env sf = true)
    (hsid : structId? (derefT sf.typ) = some fid) : fid < env.length := by
  unfold wfField at hsf
  simp only [hsid] at hsf
  exact of_decide_eq_true hsf

theorem maxFields_bound : ∀ (env : TypeEnv) (st : GoStructT), st ∈ env →
    st.fields.length ≤ maxFields env := by
  intro env
  induction env with
  | nil => intro st h; simp at h
  | cons e env ih =>
    intro st h
    rw [show maxFields (e :: env) = max e.fields.length (maxFields env) from rfl]
    rcases List.mem_cons.mp h with rfl | h
    · exact Nat.le_max_left _ _
    · exact le_trans (ih st h) (Nat.le_max_right _ _)

theorem wfEnv_fields {env : TypeEnv} (hwf : wfEnv env = true) {tid : Nat}
    {st : GoStructT} (h : env.get? tid = some st) :
    ∀ sf ∈ st.fields, wfField env sf = true := by
  intro sf hsf
  have hst : st ∈ env := List.get?_mem h
  have h1 := List.all_eq_true.mp hwf st hst
  exact List.all_eq_true.mp h1 sf hsf

theorem mem_enumFrom_snd {α : Type} : ∀ (l : List α) (n : Nat) (x : Nat × α),
    x ∈ l.enumFrom n → x.2 ∈ l := by
  intro l
  induction l with
  | nil => intro n x h; simp [List.enumFrom] at h
  | cons a l ih =>
    intro n x h
    rw [show (a :: l).enumFrom n = (n, a) :: l.enumFrom (n + 1) from rfl] at h
    rcases List.mem_cons.mp h with rfl | h
    · exact List.mem_cons_self _ _
    · exact List.mem_cons_of_mem _ (ih _ _ h)

theorem unvisited_mono (env : TypeEnv) {vis vis₂ : List Nat}
    (h : ∀ t ∈ vis, t ∈ vis₂) : unvisited env vis₂ ≤ unvisited env vis := by
  unfold unvisited
  rw [← List.countP_eq_length_filter, ← List.countP_eq_length_filter]
  apply List.countP_mono_left
  intro a _ ha
  have h2 := of_decide_eq_true ha
  exact decide_eq_true (fun hv => h2 (h a hv))

theorem filter_cons_notMem_succ_le (tid : Nat) (vis : List Nat) :
    ∀ l : List Nat, tid ∈ l → tid ∉ vis →
      (l.filter (fun t => decide (t ∉ tid :: vis))).length + 1
        ≤ (l.filter (fun t => decide (t ∉ vis))).length := by
  intro l
  induction l with
  | nil => intro h; simp at h
  | cons a l ih =>
    intro hmem hnv
    rw [List.filter_cons, List.filter_cons]
    have hmono : (l.filter (fun t => decide (t ∉ tid :: vis))).length
        ≤ (l.filter (fun t => decide (t ∉ vis))).length := by
      rw [← List.countP_eq_length_filter, ← List.countP_eq_length_filter]
      apply List.countP_mono_left
      intro b _ hb
      have h2 := of_decide_eq_true hb
      exact decide_eq_true (fun hv => h2 (List.mem_cons_of_mem _ hv))
    by_cases ha : a = tid
    · subst ha
      have h1 : (decide (a ∉ a :: vis)) = false := by simp
      have h2 : (decide (a ∉ vis)) = true := decide_eq_true hnv
      simp only [h1, h2, Bool.false_eq_true, if_false, if_true, List.length_cons]
      omega
    · have hmem2 : tid ∈ l := by
        rcases List.mem_cons.mp hmem with h | h
        · exact absurd h.symm ha
        · exact h
      have hih := ih hmem2 hnv
      by_cases hav : a ∈ vis
      · have h1 : (decide (a ∉ tid :: vis)) = false := by
          simp [List.mem_cons, hav]
        have h2 : (decide (a ∉ vis)) = false := by simp [hav]
        simp only [h1, h2, Bool.false_eq_true, if_false]
        exact hih
      · have h1 : (decide (a ∉ tid :: vis)) = true := by
          simp [List.mem_cons, hav, ha]
        have h2 : (decide (a ∉ vis)) = true := decide_eq_true hav
        simp only [h1, h2, if_true, List.length_cons]
        omega

theorem unvisited_cons_lt (env : TypeEnv) (tid : Nat) (vis : List Nat)
    (htid : tid < env.length) (hvis : tid ∉ vis) :
    unvisited env (tid :: vis) + 1 ≤ unvisited env vis :=
  filter_cons_notMem_succ_le tid vis (List.range env.length)
    (List.mem_range.mpr htid) hvis

theorem buildGo_vis_mono (env : TypeEnv) :
    ∀ (fuel : Nat) (call : BuildCall) (m' : List (String × FieldD)) (vis' : List Nat),
      buildGo env fuel call = .ok (m', vis') → ∀ t ∈ visOfCall call, t ∈ vis' := by
  intro fuel
  induction fuel with
  | zero => intro call m' vis' h; simp [buildGo] at h
  | succ fuel ih =>
    intro call m' vis' h t ht
    cases call with
    | typ tid vis =>
      rw [buildGo] at h
      exact ih _ m' vis' h t (List.mem_cons_of_mem _ ht)
    | loop rest m vis =>
      cases rest with
      | nil =>
        rw [buildGo] at h
        cases h
        exact ht
      | cons isf rest2 =>
        obtain ⟨i, sf⟩ := isf
        by_cases hs1 : sf.anonymous ∧ ¬sf.exported ∧ ¬(derefT sf.typ).isStruct
        · rw [buildGo_loop_skip env fuel i sf rest2 m vis (Or.inl hs1)] at h
          exact ih _ m' vis' h t ht
        · by_cases hs2 : ¬sf.anonymous ∧ ¬sf.exported
          · rw [buildGo_loop_skip env fuel i sf rest2 m vis (Or.inr (Or.inl hs2))] at h
            exact ih _ m' vis' h t ht
          · by_cases hs3 : sf.tag = "-"
            · rw [buildGo_loop_skip env fuel i sf rest2 m vis (Or.inr (Or.inr hs3))] at h
              exact ih _ m' vis' h t ht
            · rw [buildGo_loop_cons env fuel i sf rest2 m vis hs1 hs2 hs3] at h
              cases hstep : buildStepRes env fuel i sf m vis with
              | error e => simp only [hstep] at h; exact absurd h (by simp)
              | ok pr =>
                obtain ⟨m₁, vis₁⟩ := pr
                simp only [hstep] at h
                have hsub : ∀ s ∈ vis, s ∈ vis₁ := by
                  unfold buildStepRes at hstep
                  cases hsid : structId? (derefT sf.typ) with
                  | none =>
                    simp only [hsid] at hstep
                    cases hstep
                    exact fun s hs => hs
                  | some fid =>
                    simp only [hsid] at hstep
                    by_cases hv : fid ∈ vis
                    · rw [if_pos hv] at hstep
                      cases hstep
                      exact fun s hs => hs
                    · rw [if_neg hv] at hstep
                      cases hrec : buildGo env fuel (.typ fid vis) with
                      | error e => simp only [hrec] at hstep; exact absurd hstep (by simp)
                      | ok pr2 =>
                        obtain ⟨embedded, visr⟩ := pr2
                        simp only [hrec] at hstep
                        have hm := ih (.typ fid vis) embedded visr hrec
                        by_cases hp : fieldPromote sf = true
                        · rw [if_pos hp] at hstep
                          cases hpm : promoteMerge (fieldTagged sf) (fieldColumn sf) i
                              sf.name m embedded with
                          | error e => simp only [hpm] at hstep; exact absurd hstep (by simp)
                          | ok m2 =>
                            simp only [hpm] at hstep
                            cases hstep
                            exact hm
                        · rw [if_neg hp] at hstep
                          cases hstep
                          exact hm
                by_cases hp : fieldPromote sf = true
                · rw [if_pos hp] at h
                  exact ih _ m' vis' h t (hsub t ht)
                · rw [if_neg hp] at h
                  cases hadd : addCol m₁ (fieldColumn sf) (fieldDesc i sf) with
                  | none => simp only [hadd] at h; exact absurd h (by simp)
                  | some m₂ =>
                    simp only [hadd] at h
                    exact ih _ m' vis' h t (hsub t ht)

theorem buildStepRes_vis_mono {env : TypeEnv} {fuel i : Nat} {sf : GoField}
    {m : List (String × FieldD)} {vis : List Nat}
    {m₁ : List (String × FieldD)} {vis₁ : List Nat}
    (h : buildStepRes env fuel i sf m vis = .ok (m₁, vis₁)) :
    ∀ t ∈ vis, t ∈ vis₁ := by
  unfold buildStepRes at h
  cases hsid : structId? (derefT sf.typ) with
  | none =>
    simp only [hsid] at h
    cases h
    exact fun t ht => ht
  | some fid =>
    simp only [hsid] at h
    by_cases hv : fid ∈ vis
    · rw [if_pos hv] at h
      cases h
      exact fun t ht => ht
    · rw [if_neg hv] at h
      cases hrec : buildGo env fuel (.typ fid vis) with
      | error e => simp only [hrec] at h; exact absurd h (by simp)
      | ok pr =>
        obtain ⟨embedded, visr⟩ := pr
        simp only [hrec] at h
        have hm := buildGo_vis_mono env fuel (.typ fid vis) embedded visr hrec
        by_cases hp : fieldPromote sf = true
        · rw [if_pos hp] at h
          cases hpm : promoteMerge (fieldTagged sf) (fieldColumn sf) i
              sf.name m embedded with
          | error e => simp only [hpm] at h; exact absurd h (by simp)
          | ok m2 =>
            simp only [hpm] at h
            cases h
            exact hm
        · rw [if_neg hp] at h
          cases h
          exact hm

theorem promoteMerge_err_fuelFree (tagged : Bool) (column : String) (i : Nat)
    (sfName : String) : ∀ (embedded m : List (String × FieldD)) (e : BuildErr),
      promoteMerge tagged column i sfName m embedded = .error e →
      errFuelFree e = true := by
  intro embedded
  induction embedded with
  | nil => intro m e h; simp [promoteMerge] at h
  | cons kf rest ih =>
    obtain ⟨k, fv⟩ := kf
    intro m e h
    simp only [promoteMerge] at h
    cases hadd : addCol m (if tagged then column ++ "_" ++ k else k)
        { fv with index := i :: fv.index } with
    | none =>
      simp only [hadd] at h
      injection h with h
      rw [← h]
      rfl
    | some m2 =>
      simp only [hadd] at h
      exact ih m2 e h

theorem buildStepRes_err_fuelFree {env : TypeEnv} {fuel i : Nat} {sf : GoField}
    {m : List (String × FieldD)} {vis : List Nat} {e : BuildErr}
    (h : buildStepRes env fuel i sf m vis = .error e)
    (hrecOk : ∀ fid, structId? (derefT sf.typ) = some fid → fid ∉ vis →
        okOrFuelFree (buildGo env fuel (.typ fid vis))) :
    errFuelFree e = true := by
  unfold buildStepRes at h
  cases hsid : structId? (derefT sf.typ) with
  | none => simp only [hsid] at h; exact absurd h (by simp)
  | some fid =>
    simp only [hsid] at h
    by_cases hv : fid ∈ vis
    · rw [if_pos hv] at h; exact absurd h (by simp)
    · rw [if_neg hv] at h
      cases hrec : buildGo env fuel (.typ fid vis) with
      | error e2 =>
        simp only [hrec] at h
        injection h with h
        have hok := hrecOk fid hsid hv
        rw [hrec] at hok
        rw [← h]
        exact hok
      | ok pr =>
        obtain ⟨embedded, visr⟩ := pr
        simp only [hrec] at h
        by_cases hp : fieldPromote sf = true
        · rw [if_pos hp] at h
          cases hpm : promoteMerge (fieldTagged sf) (fieldColumn sf) i
              sf.name m embedded with
          | error e2 =>
            simp only [hpm] at h
            injection h with h
            rw [← h]
            exact promoteMerge_err_fuelFree _ _ _ _ embedded m e2 hpm
          | ok m2 => simp only [hpm] at h; exact absurd h (by simp)
        · rw [if_neg hp] at h; exact absurd h (by simp)

theorem flds_length_le (env : TypeEnv) (tid : Nat) :
    (((env.get? tid).map GoStructT.fields).getD []).length ≤ maxFields env := by
  cases henv : env.get? tid with
  | none => simp
  | some st => simpa using maxFields_bound env st (List.get?_mem henv)

theorem flds_wf (env : TypeEnv) (hwf : wfEnv env = true) (tid : Nat) :
    ∀ sf ∈ ((env.get? tid).map GoStructT.fields).getD [], wfField env sf = true := by
  cases henv : env.get? tid with
  | none => simp
  | some st => simpa using wfEnv_fields hwf henv

theorem buildGo_fuel_adequate (env : TypeEnv) (hwf : wfEnv env = true) :
    ∀ fuel : Nat,
      (∀ (tid : Nat) (vis : List Nat), tid < env.length → tid ∉ vis →
          unvisited env vis * (maxFields env + 2) + 1 ≤ fuel →
          okOrFuelFree (buildGo env fuel (.typ tid vis)))
      ∧ (∀ (rest : List (Nat × GoField)) (m : List (String × FieldD)) (vis : List Nat),
          (∀ x ∈ rest, wfField env x.2 = true) →
          unvisited env vis * (maxFields env + 2) + rest.length + 1 ≤ fuel →
          okOrFuelFree (buildGo env fuel (.loop rest m vis))) := by
  intro fuel
  induction fuel with
  | zero =>
    constructor
    · intro tid vis _ _ hle; omega
    · intro rest m vis _ hle; omega
  | succ fuel ih =>
    obtain ⟨ihA, ihB⟩ := ih
    constructor
    · intro tid vis htid hvis hle
      rw [buildGo]
      show okOrFuelFree (buildGo env fuel
        (.loop ((((env.get? tid).map GoStructT.fields).getD []).enum) [] (tid :: vis)))
      apply ihB
      · intro x hx
        exact flds_wf env hwf tid x.2 (mem_enumFrom_snd _ 0 x hx)
      · have hU := unvisited_cons_lt env tid vis htid hvis
        have hfl := flds_length_le env tid
        have h1 : (unvisited env (tid :: vis) + 1) * (maxFields env + 2)
            ≤ unvisited env vis * (maxFields env + 2) :=
          Nat.mul_le_mul_right _ hU
        have h2 : (unvisited env (tid :: vis) + 1) * (maxFields env + 2)
            = unvisited env (tid :: vis) * (maxFields env + 2) + maxFields env + 2 := by
          ring
        have hlen : (((env.get? tid).map GoStructT.fields).getD []).enum.length
            = (((env.get? tid).map GoStructT.fields).getD []).length :=
          List.enum_length
        omega
    · intro rest m vis hw hle
      cases rest with
      | nil => rw [buildGo]; trivial
      | cons isf rest2 =>
        obtain ⟨i, sf⟩ := isf
        have hw2 : ∀ x ∈ rest2, wfField env x.2 = true :=
          fun x hx => hw x (List.mem_cons_of_mem _ hx)
        have hwsf : wfField env sf = true := hw (i, sf) (List.mem_cons_self _ _)
        by_cases hs1 : sf.anonymous ∧ ¬sf.exported ∧ ¬(derefT sf.typ).isStruct
        · rw [buildGo_loop_skip env fuel i sf rest2 m vis (Or.inl hs1)]
          apply ihB rest2 m vis hw2
          simp only [List.length_cons] at hle
          omega
        · by_cases hs2 : ¬sf.anonymous ∧ ¬sf.exported
          · rw [buildGo_loop_skip env fuel i sf rest2 m vis (Or.inr (Or.inl hs2))]
            apply ihB rest2 m vis hw2
            simp only [List.length_cons] at hle
            omega
          · by_cases hs3 : sf.tag = "-"
            · rw [buildGo_loop_skip env fuel i sf rest2 m vis (Or.inr (Or.inr hs3))]
              apply ihB rest2 m vis hw2
              simp only [List.length_cons] at hle
              omega
            · rw [buildGo_loop_cons env fuel i sf rest2 m vis hs1 hs2 hs3]
              have hAfuel : unvisited env vis * (maxFields env + 2) + 1 ≤ fuel := by
                simp only [List.length_cons] at hle; omega
              cases hstep : buildStepRes env fuel i sf m vis with
              | error e =>
                exact buildStepRes_err_fuelFree hstep
                  (fun fid hsid hnv => ihA fid vis (wfField_lt hwsf hsid) hnv hAfuel)
              | ok pr =>
                obtain ⟨m₁, vis₁⟩ := pr
                have hUm : unvisited env vis₁ ≤ unvisited env vis :=
                  unvisited_mono env (buildStepRes_vis_mono hstep)
                have harith : unvisited env vis₁ * (maxFields env + 2)
                    + rest2.length + 1 ≤ fuel := by
                  have h1 : unvisited env vis₁ * (maxFields env + 2)
                      ≤ unvisited env vis * (maxFields env + 2) :=
                    Nat.mul_le_mul_right _ hUm
                  simp only [List.length_cons] at hle
                  omega
                show okOrFuelFree (if fieldPromote sf = true then
                    buildGo env fuel (.loop rest2 m₁ vis₁)
                  else
                    match addCol m₁ (fieldColumn sf) (fieldDesc i sf) with
                    | none => Except.error (.duplicate (fieldColumn sf))
                    | some m₂ => buildGo env fuel (.loop rest2 m₂ vis₁))
                by_cases hp : fieldPromote sf = true
                · rw [if_pos hp]
                  exact ihB rest2 m₁ vis₁ hw2 harith
                · rw [if_neg hp]
                  cases hadd : addCol m₁ (fieldColumn sf) (fieldDesc i sf) with
                  | none => exact rfl
                  | some m₂ => exact ihB rest2 m₂ vis₁ hw2 harith

/-- C6: descriptor construction terminates and succeeds on self-referential
types.  In the fuel-indexed embedding this is fuel adequacy: over any closed
type environment, once the fuel exceeds the bound
`unvisited·(maxFields+2)+1` — which depends only on the finitely many
declared types, not on any unbounded unfolding of the self-reference — the
builder never exhausts fuel: it returns a result whose only possible errors
are genuine (duplicate-column) ones.  The guard responsible is explicit in
the second conjunct: a struct type already in the current build's visited
set is never re-entered — the per-field step returns the map unchanged
without recursing.  The third conjunct instantiates this on the canonical
self-referential `Person` (a struct nesting a pointer to itself): the build
terminates with its exact descriptor. -/
theorem c6_self_referential_build_terminates (env : TypeEnv) (tid fuel : Nat)
    (vis : List Nat) (hwf : wfEnv env = true) (htid : tid < env.length)
    (hvis : tid ∉ vis)
    (hfuel : unvisited env vis * (maxFields env + 2) + 1 ≤ fuel) :
    okOrFuelFree (buildGo env fuel (.typ tid vis))
    ∧ (∀ (i : Nat) (sf : GoField) (m : List (String × FieldD))
         (fid : Nat) (vis2 : List Nat),
        structId? (derefT sf.typ) = some fid → fid ∈ vis2 →
        buildStepRes env fuel i sf m vis2 = .ok (m, vis2))
    ∧ newFields personEnv 10 0 [] = .ok (personFD, [0]) := by
  refine ⟨(buildGo_fuel_adequate env hwf fuel).1 tid vis htid hvis hfuel, ?_, rfl⟩
  intro i sf m fid vis2 hsid hmem
  unfold buildStepRes
  simp only [hsid]
  rw [if_pos hmem]

theorem c6_self_referential_build_terminates_witness :
    okOrFuelFree (buildGo personEnv 10 (.typ 0 []))
    ∧ newFields personEnv 10 0 [] = .ok (personFD, [0]) :=
  ⟨(c6_self_referential_build_terminates personEnv 0 10 [] rfl (by decide)
      (by decide) (by decide)).1,
   (c6_self_referential_build_terminates personEnv 0 10 [] rfl (by decide)
      (by decide) (by decide)).2.2⟩

/-! ## Collapse semantics: the pass realises the idealised collapse (claim C1) -/

theorem map_eq_self_of {α : Type} : ∀ (l : List α) (g : α → α),
    (∀ x ∈ l, g x = x) → l.map g = l := by
  intro l g
  induction l with
  | nil => intro _; rfl
  | cons x l ih =>
    intro h
    rw [List.map_cons, h x (List.mem_cons_self _ _), ih (fun y hy => h y (List.mem_cons_of_mem _ hy))]

theorem all_congr_mem {α : Type} (l : List α) (p q : α → Bool)
    (h : ∀ x ∈ l, p x = q x) : l.all p = l.all q := by
  induction l with
  | nil => rfl
  | cons x l ih =>
    rw [List.all_cons, List.all_cons, h x (List.mem_cons_self _ _),
      ih (fun y hy => h y (List.mem_cons_of_mem _ hy))]

theorem set_self_of_get? {α : Type} : ∀ (l : List α) (i : Nat) (a : α),
    l[i]? = some a → l.set i a = l := by
  intro l
  induction l with
  | nil => intro i a h; cases i <;> simp at h
  | cons x l ih =>
    intro i a h
    cases i with
    | zero =>
      simp only [List.getElem?_cons_zero] at h
      injection h with h
      rw [← h]
      rfl
    | succ j =>
      simp only [List.getElem?_cons_succ] at h
      show x :: l.set j a = x :: l
      rw [ih j a h]

theorem collapseAll_of_isZero : ∀ u : V, isZeroV u = true → collapseAll u = u := by
  intro u
  induction u using V.inductionOn with
  | hint n => intro _; rfl
  | hnone => intro _; rfl
  | hsome u ih => intro h; simp [isZeroV] at h
  | hstr fs ih =>
    intro h
    rw [collapseAll_strukt]
    congr 1
    apply map_eq_self_of
    intro f hf
    have h2 : isZeroL fs = true := h
    rw [isZeroL_eq_all] at h2
    exact ih f hf (List.all_eq_true.mp h2 f hf)

theorem isZeroV_collapseAll (u : V) : isZeroV (collapseAll u) = deepZero u := by
  induction u using V.inductionOn with
  | hint n => rfl
  | hnone => rfl
  | hsome u ih =>
    rw [collapseAll_ptrSome]
    by_cases hz : isZeroV (collapseAll u) = true
    · rw [if_pos hz]
      show true = deepZero (.ptr (some u))
      rw [show deepZero (.ptr (some u)) = deepZero u from rfl, ← ih, hz]
    · rw [if_neg hz]
      show false = deepZero (.ptr (some u))
      rw [show deepZero (.ptr (some u)) = deepZero u from rfl, ← ih]
      simp only [Bool.not_eq_true] at hz
      exact hz.symm
  | hstr fs ih =>
    rw [collapseAll_strukt]
    show isZeroL (fs.map (fun f => collapseAll f)) = deepZeroL fs
    rw [isZeroL_eq_all, deepZeroL_eq_all, List.all_map]
    exact all_congr_mem fs _ _ (fun f hf => ih f hf)

theorem deepZero_readPath : ∀ (q : List Nat) (v x : V),
    deepZero v = true → readPath v q = some x → deepZero x = true := by
  intro q
  induction q with
  | nil =>
    intro v x hz hr
    rw [readPath_nil] at hr
    injection hr with hr
    rw [← hr]
    exact hz
  | cons i q ih =>
    intro v x hz hr
    cases v with
    | int n => rw [readPath_int] at hr; exact Option.noConfusion hr
    | ptr o =>
      cases o with
      | none => rw [readPath_ptrNone] at hr; exact Option.noConfusion hr
      | some u =>
        rw [readPath_ptrSome] at hr
        cases u with
        | int m => exact Option.noConfusion hr
        | ptr o2 => exact Option.noConfusion hr
        | strukt fs =>
          have hr2 : readPath (V.strukt fs) (i :: q) = some x := hr
          rw [readPath_strukt] at hr2
          cases hf : fs[i]? with
          | none => simp only [hf] at hr2; exact Option.noConfusion hr2
          | some f =>
            simp only [hf] at hr2
            have hzf : deepZero f = true := by
              have h2 : deepZeroL fs = true := hz
              rw [deepZeroL_eq_all] at h2
              exact List.all_eq_true.mp h2 f (List.getElem?_mem hf)
            exact ih f x hzf hr2
    | strukt fs =>
      rw [readPath_strukt] at hr
      cases hf : fs[i]? with
      | none => simp only [hf] at hr; exact Option.noConfusion hr
      | some f =>
        simp only [hf] at hr
        have hzf : deepZero f = true := by
          have h2 : deepZeroL fs = true := hz
          rw [deepZeroL_eq_all] at h2
          exact List.all_eq_true.mp h2 f (List.getElem?_mem hf)
        exact ih f x hzf hr

theorem collapseAll_pointee_nonzero : ∀ (w : V) (q : List Nat) (u : V),
    readPath (collapseAll w) q = some (.ptr (some u)) → isZeroV u = false := by
  intro w
  induction w using V.inductionOn with
  | hint n =>
    intro q u h
    rw [collapseAll_int] at h
    cases q with
    | nil => rw [readPath_nil] at h; simp at h
    | cons i p => rw [readPath_int] at h; exact Option.noConfusion h
  | hnone =>
    intro q u h
    rw [collapseAll_ptrNone] at h
    cases q with
    | nil => rw [readPath_nil] at h; simp at h
    | cons i p => rw [readPath_ptrNone] at h; exact Option.noConfusion h
  | hsome w ih =>
    intro q u h
    rw [collapseAll_ptrSome] at h
    by_cases hz : isZeroV (collapseAll w) = true
    · rw [if_pos hz] at h
      cases q with
      | nil => rw [readPath_nil] at h; simp at h
      | cons i p => rw [readPath_ptrNone] at h; exact Option.noConfusion h
    · rw [if_neg hz] at h
      cases q with
      | nil =>
        rw [readPath_nil] at h
        injection h with h
        injection h with h
        injection h with h
        rw [← h]
        simp only [Bool.not_eq_true] at hz
        exact hz
      | cons i p =>
        rw [readPath_ptrSome] at h
        cases hc : collapseAll w with
        | int n => simp only [hc] at h; exact Option.noConfusion h
        | ptr o => simp only [hc] at h; exact Option.noConfusion h
        | strukt fs =>
          simp only [hc] at h
          exact ih (i :: p) u (by rw [hc]; exact h)
  | hstr fs ih =>
    intro q u h
    rw [collapseAll_strukt] at h
    cases q with
    | nil => rw [readPath_nil] at h; simp at h
    | cons i p =>
      rw [readPath_strukt] at h
      cases hf : (fs.map (fun f => collapseAll f))[i]? with
      | none => simp only [hf] at h; exact Option.noConfusion h
      | some cf =>
        simp only [hf] at h
        rw [List.getElem?_map] at hf
        cases hfi : fs[i]? with
        | none => rw [hfi] at hf; exact Option.noConfusion hf
        | some f =>
          rw [hfi] at hf
          simp only [Option.map_some'] at hf
          injection hf with hf
          rw [← hf] at h
          exact ih f (List.getElem?_mem hfi) p u h

theorem collapseAll_of_settled : ∀ u : V,
    (∀ q ∈ ptrSomePaths u, ∃ w, readPath u q = some (.ptr (some w))
       ∧ collapseAll w = w ∧ isZeroV w = false) →
    collapseAll u = u := by
  intro u
  induction u using V.inductionOn with
  | hint n => intro _; rfl
  | hnone => intro _; rfl
  | hsome w ih =>
    intro h
    obtain ⟨w0, hr, hc, hz⟩ := h []
      (by rw [ptrSomePaths_ptrSome]; exact List.mem_cons_self _ _)
    rw [readPath_nil] at hr
    injection hr with hr
    injection hr with hr
    injection hr with hr
    subst hr
    rw [collapseAll_ptrSome, hc, hz]
    simp
  | hstr fs ih =>
    intro h
    rw [collapseAll_strukt]
    congr 1
    apply map_eq_self_of
    intro f hf
    obtain ⟨j, hj⟩ := List.getElem?_of_mem hf
    apply ih f hf
    intro q hq
    have hmem : j :: q ∈ ptrSomePaths (V.strukt fs) := by
      rw [ptrSomePaths_strukt, mem_ptrSomePathsL]
      exact ⟨j, f, q, hj, by rw [Nat.zero_add], hq⟩
    obtain ⟨w, hr, hc, hz⟩ := h _ hmem
    rw [readPath_strukt] at hr
    simp only [hj] at hr
    exact ⟨w, hr, hc, hz⟩

theorem map_collapseAll_update (fs : List V) (i : Nat) (p : List Nat) (f : V)
    (hf : fs[i]? = some f)
    (ihf : collapseAll (updatePath f p (fun _ => .ptr none)) = collapseAll f) :
    (updateFieldL fs i p (fun _ => .ptr none)).map (fun g => collapseAll g)
      = fs.map (fun g => collapseAll g) := by
  rw [updateFieldL_eq]
  simp only [hf]
  rw [List.map_set]
  simp only [ihf]
  apply set_self_of_get?
  rw [List.getElem?_map, hf]
  rfl

theorem collapseAll_update_nil : ∀ (p : List Nat) (v u : V),
    readPath v p = some (.ptr (some u)) → isZeroV u = true →
    collapseAll (updatePath v p (fun _ => .ptr none)) = collapseAll v := by
  intro p
  induction p with
  | nil =>
    intro v u hr hz
    rw [readPath_nil] at hr
    injection hr with hr
    subst hr
    rw [updatePath_nil]
    rw [collapseAll_ptrNone, collapseAll_ptrSome, collapseAll_of_isZero u hz, hz]
    simp
  | cons i p ih =>
    intro v u hr hz
    cases v with
    | int n => exact Option.noConfusion hr
    | ptr o =>
      cases o with
      | none => exact Option.noConfusion hr
      | some w =>
        cases w with
        | int m => exact Option.noConfusion hr
        | ptr o2 => exact Option.noConfusion hr
        | strukt fs =>
          have hr2 : readPath (V.strukt fs) (i :: p) = some (.ptr (some u)) := hr
          rw [readPath_strukt] at hr2
          cases hf : fs[i]? with
          | none => simp only [hf] at hr2; exact Option.noConfusion hr2
          | some f =>
            simp only [hf] at hr2
            have hemap := map_collapseAll_update fs i p f hf (ih f u hr2 hz)
            have hupd : updatePath (V.ptr (some (V.strukt fs))) (i :: p)
                  (fun _ => V.ptr none)
                = V.ptr (some (V.strukt (updateFieldL fs i p (fun _ => V.ptr none)))) := rfl
            rw [hupd, collapseAll_ptrSome, collapseAll_ptrSome,
              collapseAll_strukt, collapseAll_strukt, hemap]
    | strukt fs =>
      rw [readPath_strukt] at hr
      cases hf : fs[i]? with
      | none => simp only [hf] at hr; exact Option.noConfusion hr
      | some f =>
        simp only [hf] at hr
        have hemap := map_collapseAll_update fs i p f hf (ih f u hr hz)
        rw [updatePath_strukt, collapseAll_strukt, collapseAll_strukt, hemap]

theorem structPointees_readPath : ∀ (q : List Nat) (v w : V),
    structPointees v = true → readPath v q = some w → structPointees w = true := by
  intro q
  induction q with
  | nil =>
    intro v w hs hr
    rw [readPath_nil] at hr
    injection hr with hr
    rw [← hr]
    exact hs
  | cons i q ih =>
    intro v w hs hr
    cases v with
    | int n => exact Option.noConfusion hr
    | ptr o =>
      cases o with
      | none => exact Option.noConfusion hr
      | some u =>
        cases u with
        | int m => exact Option.noConfusion hr
        | ptr o2 => exact Option.noConfusion hr
        | strukt fs =>
          have hr2 : readPath (V.strukt fs) (i :: q) = some w := hr
          rw [readPath_strukt] at hr2
          cases hf : fs[i]? with
          | none => simp only [hf] at hr2; exact Option.noConfusion hr2
          | some f =>
            simp only [hf] at hr2
            have hsf : structPointees f = true := by
              have h2 : structPointeesL fs = true := hs
              rw [structPointeesL_eq_all] at h2
              exact List.all_eq_true.mp h2 f (List.getElem?_mem hf)
            exact ih f w hsf hr2
    | strukt fs =>
      rw [readPath_strukt] at hr
      cases hf : fs[i]? with
      | none => simp only [hf] at hr; exact Option.noConfusion hr
      | some f =>
        simp only [hf] at hr
        have hsf : structPointees f = true := by
          have h2 : structPointeesL fs = true := hs
          rw [structPointeesL_eq_all] at h2
          exact List.all_eq_true.mp h2 f (List.getElem?_mem hf)
        exact ih f w hsf hr

theorem structPointees_pointee_strukt {v : V} {p : List Nat} {u : V}
    (hs : structPointees v = true) (hr : readPath v p = some (.ptr (some u))) :
    ∃ fs, u = .strukt fs := by
  have h := structPointees_readPath p v _ hs hr
  cases u with
  | strukt fs => exact ⟨fs, rfl⟩
  | int n => simp [structPointees] at h
  | ptr o => simp [structPointees] at h

theorem structPointees_update_nil : ∀ (p : List Nat) (v : V),
    structPointees v = true →
    structPointees (updatePath v p (fun _ => .ptr none)) = true := by
  intro p
  induction p with
  | nil => intro v _; rw [updatePath_nil]; rfl
  | cons i p ih =>
    intro v hs
    cases v with
    | int n => exact hs
    | ptr o =>
      cases o with
      | none => exact hs
      | some u =>
        cases u with
        | int m => exact hs
        | ptr o2 => exact hs
        | strukt fs =>
          show structPointeesL (updateFieldL fs i p (fun _ => V.ptr none)) = true
          rw [updateFieldL_eq]
          cases hf : fs[i]? with
          | none => simp only [hf]; exact hs
          | some f =>
            simp only [hf]
            rw [structPointeesL_eq_all]
            apply List.all_eq_true.mpr
            intro x hx
            have h2 : structPointeesL fs = true := hs
            rw [structPointeesL_eq_all] at h2
            rcases List.mem_or_eq_of_mem_set hx with hx2 | rfl
            · exact List.all_eq_true.mp h2 x hx2
            · exact ih f (List.all_eq_true.mp h2 f (List.getElem?_mem hf))
    | strukt fs =>
      show structPointeesL (updateFieldL fs i p (fun _ => V.ptr none)) = true
      rw [updateFieldL_eq]
      cases hf : fs[i]? with
      | none => simp only [hf]; exact hs
      | some f =>
        simp only [hf]
        rw [structPointeesL_eq_all]
        apply List.all_eq_true.mpr
        intro x hx
        have h2 : structPointeesL fs = true := hs
        rw [structPointeesL_eq_all] at h2
        rcases List.mem_or_eq_of_mem_set hx with hx2 | rfl
        · exact List.all_eq_true.mp h2 x hx2
        · exact ih f (List.all_eq_true.mp h2 f (List.getElem?_mem hf))

theorem readPath_through_ptr {v : V} {p : List Nat} {fs : List V}
    (hr : readPath v p = some (.ptr (some (.strukt fs)))) :
    ∀ (q : List Nat), q ≠ [] → readPath v (p ++ q) = readPath (.strukt fs) q := by
  intro q hq
  rw [readPath_append, hr]
  cases q with
  | nil => exact absurd rfl hq
  | cons j q2 => rfl

theorem settled_of_sub (v : V) (p : List Nat) (u : V)
    (hsp : structPointees v = true)
    (hr : readPath v p = some (.ptr (some u)))
    (hz : isZeroV u = false)
    (hsub : ∀ r, r ≠ [] → (∃ w, readPath v (p ++ r) = some (.ptr (some w))) →
        Settled v (p ++ r)) :
    Settled v p := by
  obtain ⟨fs, rfl⟩ := structPointees_pointee_strukt hsp hr
  refine ⟨.strukt fs, hr, ?_, hz⟩
  apply collapseAll_of_settled
  intro q hq
  obtain ⟨w, hw⟩ := (mem_ptrSomePaths _ q).mp hq
  cases q with
  | nil =>
    rw [readPath_nil] at hw
    simp at hw
  | cons j q2 =>
    have hth := readPath_through_ptr hr (j :: q2) (by simp)
    have hpres : ∃ w2, readPath v (p ++ (j :: q2)) = some (.ptr (some w2)) :=
      ⟨w, by rw [hth]; exact hw⟩
    obtain ⟨w1, hw1, hc1, hz1⟩ := hsub (j :: q2) (by simp) hpres
    rw [hth] at hw1
    exact ⟨w1, hw1, hc1, hz1⟩

theorem collapsePass_eq_collapseAll :
    ∀ (L : List (List Nat)) (v : V),
      L.Pairwise (fun a b => b.length ≤ a.length) →
      structPointees v = true →
      (∀ q ∈ L, ∃ o, readPath v q = some (.ptr o)) →
      (∀ q ∈ ptrSomePaths v, q ∈ L ∨ Settled v q) →
      collapsePass L v = (collapseAll v, none) := by
  intro L
  induction L with
  | nil =>
    intro v _ _ _ h4
    have hset : collapseAll v = v := collapseAll_of_settled v (fun q hq => by
      rcases h4 q hq with h | h
      · simp at h
      · exact h)
    show (v, none) = (collapseAll v, none)
    rw [hset]
  | cons p R ih =>
    intro v hsort hsp h3 h4
    rw [List.pairwise_cons] at hsort
    obtain ⟨hplen, hsortR⟩ := hsort
    obtain ⟨o, hro⟩ := h3 p (List.mem_cons_self _ _)
    cases o with
    | none =>
      have hcs : collapseStep v p = .ok v := by
        unfold collapseStep
        rw [hro]
      have hpass : collapsePass (p :: R) v = collapsePass R v := by
        simp only [collapsePass]
        rw [hcs]
      rw [hpass]
      refine ih v hsortR hsp (fun q hq => h3 q (List.mem_cons_of_mem _ hq)) ?_
      intro q hqPS
      rcases h4 q hqPS with hmem | hset
      · rcases List.mem_cons.mp hmem with rfl | h
        · exfalso
          obtain ⟨u2, hu2⟩ := (mem_ptrSomePaths v q).mp hqPS
          rw [hro] at hu2
          simp at hu2
        · exact Or.inl h
      · exact Or.inr hset
    | some u =>
      by_cases hz : isZeroV u = true
      · have hcs : collapseStep v p = .ok (updatePath v p (fun _ => .ptr none)) := by
          unfold collapseStep
          rw [hro]
          show (if isZeroV u = true then
              Except.ok (updatePath v p (fun _ => V.ptr none))
            else Except.ok v) = _
          rw [if_pos hz]
        have hpass : collapsePass (p :: R) v
            = collapsePass R (updatePath v p (fun _ => .ptr none)) := by
          simp only [collapsePass]
          rw [hcs]
        rw [hpass]
        have hU := collapseAll_update_nil p v u hro hz
        rw [← hU]
        refine ih (updatePath v p (fun _ => .ptr none)) hsortR
          (structPointees_update_nil p v hsp) ?_ ?_
        · intro q hq
          by_cases hqp : q = p
          · subst hqp
            exact ⟨none, readPath_updatePath_self q v _ _ hro⟩
          · by_cases hqpre : q <+: p
            · obtain ⟨r, hr⟩ := hqpre
              have hrne : r ≠ [] := fun h0 => hqp (by rw [h0, List.append_nil] at hr; exact hr)
              obtain ⟨o2, ho2⟩ := h3 q (List.mem_cons_of_mem _ hq)
              have hanc := readPath_updatePath_ancestor q v (V.ptr o2) r
                (fun _ => V.ptr none) hrne ho2
              rw [hr] at hanc
              cases r with
              | nil => exact absurd rfl hrne
              | cons j r2 =>
                cases o2 with
                | none => exact ⟨none, by rw [hanc]; rfl⟩
                | some w2 =>
                  cases w2 with
                  | int m => exact ⟨some (V.int m), by rw [hanc]; rfl⟩
                  | ptr o3 => exact ⟨some (V.ptr o3), by rw [hanc]; rfl⟩
                  | strukt fs2 =>
                    exact ⟨some (V.strukt (updateFieldL fs2 j r2 (fun _ => V.ptr none))),
                      by rw [hanc]; rfl⟩
            · by_cases hpq : p <+: q
              · exfalso
                obtain ⟨r, hr⟩ := hpq
                have hlq := hplen q hq
                have hlen := congrArg List.length hr
                rw [List.length_append] at hlen
                have hr0 : r = [] := List.eq_nil_of_length_eq_zero (by omega)
                rw [hr0, List.append_nil] at hr
                exact hqp hr.symm
              · obtain ⟨o2, ho2⟩ := h3 q (List.mem_cons_of_mem _ hq)
                exact ⟨o2, by rw [updatePath_frame p v q _ hpq hqpre]; exact ho2⟩
        · intro q hq2
          obtain ⟨u2, hu2⟩ := (mem_ptrSomePaths _ q).mp hq2
          by_cases hqp : q = p
          · subst hqp
            have hp2 := readPath_updatePath_self q v _ (fun _ => V.ptr none) hro
            rw [hp2] at hu2
            simp at hu2
          · by_cases hqpre : q <+: p
            · obtain ⟨r, hr⟩ := hqpre
              have hrne : r ≠ [] := fun h0 => hqp (by rw [h0, List.append_nil] at hr; exact hr)
              have hw0 : ∃ w, readPath v q = some w := by
                have h5 := hro
                rw [← hr, readPath_append] at h5
                cases hw : readPath v q with
                | none => rw [hw] at h5; exact Option.noConfusion h5
                | some w => exact ⟨w, rfl⟩
              obtain ⟨w, hw⟩ := hw0
              have hanc := readPath_updatePath_ancestor q v w r (fun _ => V.ptr none) hrne hw
              rw [hr] at hanc
              rw [hanc] at hu2
              injection hu2 with hu2
              cases r with
              | nil => exact absurd rfl hrne
              | cons j r2 =>
                cases w with
                | int m => exact V.noConfusion hu2
                | strukt fs2 => exact V.noConfusion hu2
                | ptr o2 =>
                  cases o2 with
                  | none =>
                    have hu3 : V.ptr none = V.ptr (some u2) := hu2
                    injection hu3 with hu3
                    exact Option.noConfusion hu3
                  | some w0 =>
                    have hqPS : q ∈ ptrSomePaths v := by
                      rw [mem_ptrSomePaths]
                      exact ⟨w0, hw⟩
                    rcases h4 q hqPS with hmem | hset
                    · rcases List.mem_cons.mp hmem with h | h
                      · exact absurd h hqp
                      · exact Or.inl h
                    · exfalso
                      obtain ⟨w1, hw1, hc1, hz1⟩ := hset
                      rw [hw] at hw1
                      injection hw1 with hw1
                      injection hw1 with hw1
                      injection hw1 with hw1
                      subst hw1
                      have hdeep : readPath (V.ptr (some w0)) (j :: r2)
                          = some (.ptr (some u)) := by
                        have h5 := hro
                        rw [← hr, readPath_append, hw] at h5
                        exact h5
                      cases w0 with
                      | int m => exact Option.noConfusion hdeep
                      | ptr o3 => exact Option.noConfusion hdeep
                      | strukt fs3 =>
                        have hdeep2 : readPath (V.strukt fs3) (j :: r2)
                            = some (.ptr (some u)) := hdeep
                        have himg := collapseAll_pointee_nonzero (V.strukt fs3) (j :: r2) u
                          (by rw [hc1]; exact hdeep2)
                        rw [hz] at himg
                        exact Bool.noConfusion himg
            · by_cases hpq : p <+: q
              · exfalso
                obtain ⟨r, hr⟩ := hpq
                have hrne : r ≠ [] := fun h0 => hqp (by rw [h0, List.append_nil] at hr; exact hr.symm)
                have hp2 : readPath (updatePath v p (fun _ => V.ptr none)) p
                    = some (.ptr none) :=
                  readPath_updatePath_self p v _ _ hro
                have hnone : readPath (updatePath v p (fun _ => V.ptr none)) q = none := by
                  rw [← hr, readPath_append, hp2]
                  cases r with
                  | nil => exact absurd rfl hrne
                  | cons j r2 => rfl
                rw [hnone] at hu2
                exact Option.noConfusion hu2
              · have hfr := updatePath_frame p v q (fun _ => V.ptr none) hpq hqpre
                rw [hfr] at hu2
                have hqPS : q ∈ ptrSomePaths v := by
                  rw [mem_ptrSomePaths]
                  exact ⟨u2, hu2⟩
                rcases h4 q hqPS with hmem | hset
                · rcases List.mem_cons.mp hmem with h | h
                  · exact absurd h hqp
                  · exact Or.inl h
                · right
                  obtain ⟨w1, hw1, hc1, hz1⟩ := hset
                  exact ⟨w1, by rw [hfr]; exact hw1, hc1, hz1⟩
      · have hcs : collapseStep v p = .ok v := by
          unfold collapseStep
          rw [hro]
          show (if isZeroV u = true then
              Except.ok (updatePath v p (fun _ => V.ptr none))
            else Except.ok v) = _
          rw [if_neg hz]
        have hpass : collapsePass (p :: R) v = collapsePass R v := by
          simp only [collapsePass]
          rw [hcs]
        rw [hpass]
        have hsetp : Settled v p := by
          apply settled_of_sub v p u hsp hro
            (by simp only [Bool.not_eq_true] at hz; exact hz)
          intro r hrne hpres
          obtain ⟨w, hwr⟩ := hpres
          have hmemPS : (p ++ r) ∈ ptrSomePaths v := by
            rw [mem_ptrSomePaths]
            exact ⟨w, hwr⟩
          rcases h4 _ hmemPS with hmem | hset
          · exfalso
            rcases List.mem_cons.mp hmem with h | h
            · have hlen := congrArg List.length h
              rw [List.length_append] at hlen
              exact hrne (List.eq_nil_of_length_eq_zero (by omega))
            · have hl := hplen _ h
              rw [List.length_append] at hl
              exact hrne (List.eq_nil_of_length_eq_zero (by omega))
          · exact hset
        refine ih v hsortR hsp (fun q hq => h3 q (List.mem_cons_of_mem _ hq)) ?_
        intro q hqPS
        rcases h4 q hqPS with hmem | hset
        · rcases List.mem_cons.mp hmem with rfl | h
          · exact Or.inr hsetp
          · exact Or.inl h
        · exact Or.inr hset

theorem presentAt_collapseAll : ∀ (p : List Nat) (v u : V),
    readPath v p = some (.ptr (some u)) →
    (presentAt (collapseAll v) p = true ↔ deepZero u = false) := by
  intro p
  induction p with
  | nil =>
    intro v u hr
    rw [readPath_nil] at hr
    injection hr with hr
    subst hr
    rw [collapseAll_ptrSome]
    by_cases hz : isZeroV (collapseAll u) = true
    · rw [if_pos hz]
      constructor
      · intro h; exact Bool.noConfusion h
      · intro h
        rw [← isZeroV_collapseAll, hz] at h
        exact Bool.noConfusion h
    · rw [if_neg hz]
      constructor
      · intro _
        rw [← isZeroV_collapseAll]
        simp only [Bool.not_eq_true] at hz
        exact hz
      · intro _
        rfl
  | cons i p ih =>
    intro v u hr
    cases v with
    | int n => exact Option.noConfusion hr
    | ptr o =>
      cases o with
      | none => exact Option.noConfusion hr
      | some w =>
        cases w with
        | int m => exact Option.noConfusion hr
        | ptr o2 => exact Option.noConfusion hr
        | strukt fs =>
          have hrS : readPath (V.strukt fs) (i :: p) = some (.ptr (some u)) := hr
          have hr2 := hrS
          rw [readPath_strukt] at hr2
          cases hf : fs[i]? with
          | none => simp only [hf] at hr2; exact Option.noConfusion hr2
          | some f =>
            simp only [hf] at hr2
            rw [collapseAll_ptrSome]
            by_cases hz : isZeroV (collapseAll (V.strukt fs)) = true
            · rw [if_pos hz]
              have hfalse : presentAt (V.ptr none) (i :: p) = false := rfl
              rw [hfalse]
              constructor
              · intro h; exact Bool.noConfusion h
              · intro hdz
                exfalso
                rw [isZeroV_collapseAll] at hz
                have hdzu := deepZero_readPath (i :: p) (V.strukt fs) _ hz hrS
                have hdzu2 : deepZero u = true := hdzu
                rw [hdzu2] at hdz
                exact Bool.noConfusion hdz
            · rw [if_neg hz]
              rw [collapseAll_strukt]
              have hstep : presentAt
                  (V.ptr (some (V.strukt (fs.map (fun g => collapseAll g))))) (i :: p)
                  = presentAt (V.strukt (fs.map (fun g => collapseAll g))) (i :: p) := rfl
              rw [hstep]
              have hread : presentAt (V.strukt (fs.map (fun g => collapseAll g))) (i :: p)
                  = presentAt (collapseAll f) p := by
                unfold presentAt
                rw [readPath_strukt, List.getElem?_map, hf]
                rfl
              rw [hread]
              exact ih f u hr2
    | strukt fs =>
      rw [readPath_strukt] at hr
      cases hf : fs[i]? with
      | none => simp only [hf] at hr; exact Option.noConfusion hr
      | some f =>
        simp only [hf] at hr
        rw [collapseAll_strukt]
        have hread : presentAt (V.strukt (fs.map (fun g => collapseAll g))) (i :: p)
            = presentAt (collapseAll f) p := by
          unfold presentAt
          rw [readPath_strukt, List.getElem?_map, hf]
          rfl
        rw [hread]
        exact ih f u hr

theorem readPath_collapseAll_int : ∀ (q : List Nat) (v : V) (n : Int),
    readPath v q = some (.int n) → n ≠ 0 →
    readPath (collapseAll v) q = some (.int n) := by
  intro q
  induction q with
  | nil =>
    intro v n hr hn
    rw [readPath_nil] at hr
    injection hr with hr
    subst hr
    rw [collapseAll_int, readPath_nil]
  | cons i q ih =>
    intro v n hr hn
    cases v with
    | int m => exact Option.noConfusion hr
    | ptr o =>
      cases o with
      | none => exact Option.noConfusion hr
      | some w =>
        cases w with
        | int m => exact Option.noConfusion hr
        | ptr o2 => exact Option.noConfusion hr
        | strukt fs =>
          have hr2 : readPath (V.strukt fs) (i :: q) = some (.int n) := hr
          have hdz : deepZero (V.strukt fs) = false := by
            cases hdzc : deepZero (V.strukt fs) with
            | false => rfl
            | true =>
              exfalso
              have hx := deepZero_readPath (i :: q) (V.strukt fs) _ hdzc hr2
              have hx2 : (n == 0) = true := hx
              rw [beq_iff_eq] at hx2
              exact hn hx2
          rw [collapseAll_ptrSome, if_neg (by
            rw [isZeroV_collapseAll, hdz]
            exact Bool.false_ne_true)]
          have hstep : readPath (V.ptr (some (collapseAll (V.strukt fs)))) (i :: q)
              = readPath (collapseAll (V.strukt fs)) (i :: q) := by
            rw [collapseAll_strukt]
            rfl
          rw [hstep, collapseAll_strukt, readPath_strukt, List.getElem?_map]
          rw [readPath_strukt] at hr2
          cases hf : fs[i]? with
          | none => simp only [hf] at hr2; exact Option.noConfusion hr2
          | some f =>
            simp only [hf] at hr2
            show readPath (collapseAll f) q = some (.int n)
            exact ih f n hr2 hn
    | strukt fs =>
      rw [readPath_strukt] at hr
      rw [collapseAll_strukt, readPath_strukt, List.getElem?_map]
      cases hf : fs[i]? with
      | none => simp only [hf] at hr; exact Option.noConfusion hr
      | some f =>
        simp only [hf] at hr
        show readPath (collapseAll f) q = some (.int n)
        exact ih f n hr hn

/-- C1 counterexample: scanning column `"X"` of a promoted *pointer* embed
(`P { *S }` flattened into the parent namespace) against the all-default row
`[0]`.  Column `"X"` resolves by *exact match* to the path through the
embedded pointer, so no intermediate traversal event fires and the collapse
set stays empty; the deep targeter still touches (allocates) the embedded
pointer.  After the scan the touched pointer remains present although every
value scanned beneath it is the type's default — refuting "absent iff every
value scanned beneath it is default" as stated for all touched
pointer-typed fields. -/
theorem c1_counterexample :
    fieldsRowsScan (newFieldsRows promoPtrEnv 10 promoPtrFD ["X"]) (.ok [0])
        (.strukt [.ptr none])
      = (.strukt [.ptr (some (.strukt [.int 0]))], none) := rfl

/-- C1 amended: the absent-iff-all-default behaviour holds exactly for the
pointer fields the plan's *collapse set* covers.  For a plan whose collapse
set (a) addresses only pointer positions of the post-scan destination `v`
and (b) covers every present pointer of `v` — which is the situation for a
destination whose nested pointers were allocated by the plan's own
decomposed-column targeters, but *not* for exact-match columns through
promoted pointer embeds (see the counterexample) — the sequential
deepest-first pass errors never, computes precisely the idealised bottom-up
collapse, and afterwards: a touched pointer field is absent iff every
reachable leaf beneath it is the type's zero (all-default sub-columns yield
nil), and every non-default scalar that was scanned survives at its exact
path (a present nested instance carries exactly the scanned values). -/
theorem c1_touched_pointer_collapse (env : TypeEnv) (fuel : Nat) (f : FieldsD)
    (cols : List String) (v : V)
    (hsp : structPointees v = true)
    (hptr : ∀ q ∈ (newFieldsRows env fuel f cols).zeroNils, isPtrAt v q = true)
    (hps : ∀ q ∈ ptrSomePaths v, q ∈ (newFieldsRows env fuel f cols).zeroNils) :
    collapsePass (newFieldsRows env fuel f cols).zeroNils v = (collapseAll v, none)
    ∧ (∀ p u, readPath v p = some (.ptr (some u)) →
        (presentAt (collapsePass (newFieldsRows env fuel f cols).zeroNils v).1 p = true
          ↔ deepZero u = false))
    ∧ (∀ q n, readPath v q = some (.int n) → n ≠ 0 →
        readPath (collapsePass (newFieldsRows env fuel f cols).zeroNils v).1 q
          = some (.int n)) := by
  have hsort : (newFieldsRows env fuel f cols).zeroNils.Pairwise
      (fun a b => b.length ≤ a.length) := sortByLenDesc_pairwise _
  have h3 : ∀ q ∈ (newFieldsRows env fuel f cols).zeroNils,
      ∃ o, readPath v q = some (.ptr o) := by
    intro q hq
    have hb := hptr q hq
    unfold isPtrAt at hb
    cases hrq : readPath v q with
    | none => simp only [hrq] at hb; exact Bool.noConfusion hb
    | some w =>
      cases w with
      | int m => simp only [hrq] at hb; exact Bool.noConfusion hb
      | strukt fs2 => simp only [hrq] at hb; exact Bool.noConfusion hb
      | ptr o => exact ⟨o, rfl⟩
  have hmain := collapsePass_eq_collapseAll _ v hsort hsp h3
    (fun q hq => Or.inl (hps q hq))
  refine ⟨hmain, ?_, ?_⟩
  · intro p u hru
    rw [hmain]
    exact presentAt_collapseAll p v u hru
  · intro q n hrn hn
    rw [hmain]
    exact readPath_collapseAll_int q v n hrn hn

theorem c1_touched_pointer_collapse_witness :
    collapsePass (newFieldsRows personEnv 10 personFD personCols).zeroNils
        (V.strukt [.int 2, .int 9, .ptr (some (.strukt [.int 0, .int 0,
          .ptr (some (.strukt [.int 0, .int 0, .ptr none]))]))])
      = (.strukt [.int 2, .int 9, .ptr none], none) := by
  have h := (c1_touched_pointer_collapse personEnv 10 personFD personCols
    (V.strukt [.int 2, .int 9, .ptr (some (.strukt [.int 0, .int 0,
      .ptr (some (.strukt [.int 0, .int 0, .ptr none]))]))])
    rfl (by decide) (by decide)).1
  rw [h]
  rfl

end Reflectp

